import Mathlib

set_option maxHeartbeats 1000000
set_option autoImplicit false

/-!
Verification of the `dark-automation` repository's specification claims.

The definitions below are a shallow embedding of the Python sources:
`src/vmware_vsphere_client.py`, `src/enterprise_security_scanner.py` and
`src/infrastructure_orchestrator.py`.  Pure computations are translated
directly; the `asyncio` layer is transparent here because every coroutine in
the source only sleeps and builds data, so awaiting in program order is the
deterministic semantics of the original.  `datetime.now()` readings and the
per-process salt of Python's `hash` on strings are modelled as explicit
parameters, since they are the only external inputs any of these functions
consult.
-/

namespace DarkAutomation

/-- Python truthiness of `x or default` for `x : Optional[str]`:
`None` and the empty string are falsy. -/
def pyOrString (x : Option String) (dflt : String) : String :=
  match x with
  | none => dflt
  | some s => if s = "" then dflt else s

namespace VSphere

/-- Embedding of the `VirtualMachine` dataclass of `vmware_vsphere_client.py`. -/
structure VirtualMachine where
  name : String
  vm_id : String
  power_state : String
  cpu_count : Nat
  memory_mb : Nat
  guest_os : String
  ip_address : Option String
  tools_status : Option String
  datacenter : Option String
  cluster : Option String
  host : Option String
deriving DecidableEq, Repr

/-- The `vm_templates` literal inside `VSphereClient.list_virtual_machines`:
name, guest OS, cpu count, memory. -/
def vm_templates : List (String × String × Nat × Nat) :=
  [("web-server-01", "Ubuntu 20.04", 4, 8192),
   ("db-server-01", "CentOS 8", 8, 16384),
   ("app-server-01", "Windows Server 2019", 6, 12288),
   ("monitoring-01", "Ubuntu 22.04", 2, 4096),
   ("backup-server", "CentOS 8", 4, 8192)]

/-- Embedding of `VSphereClient.list_virtual_machines`.  The Python loop
`for i, template in enumerate(vm_templates)` builds one record per template;
the `datacenter` field is `datacenter or "Datacenter1"` (Python truthiness). -/
def list_virtual_machines (datacenter : Option String) : List VirtualMachine :=
  vm_templates.enum.map (fun p =>
    let i := p.1
    let t := p.2
    { name := t.1
      vm_id := "vm-" ++ toString (1000 + i)
      power_state := if i % 2 = 0 then "poweredOn" else "poweredOff"
      cpu_count := t.2.2.1
      memory_mb := t.2.2.2
      guest_os := t.2.1
      ip_address := if i % 2 = 0 then some ("192.168.1." ++ toString (10 + i)) else none
      tools_status := if i % 2 = 0 then some "toolsOk" else some "toolsNotInstalled"
      datacenter := some (pyOrString datacenter "Datacenter1")
      cluster := some "Cluster1"
      host := some ("esxi-host-" ++ toString (i % 3 + 1) ++ ".local") })

/-- Embedding of `VSphereClient.get_vm_details`: looks the name up in the
inventory produced by `list_virtual_machines()` (called with no argument,
i.e. `datacenter = None`), returning the first match or `None`. -/
def get_vm_details (vm_name : String) : Option VirtualMachine :=
  (list_virtual_machines none).find? (fun vm => vm.name == vm_name)

/-- Embedding of `VSphereClient.power_on_vm`.  A missing VM raises inside the
`try` block, is caught, and yields `False`; a found VM returns `True` both in
the already-powered-on branch and after the simulated boot. -/
def power_on_vm (vm_name : String) : Bool :=
  match get_vm_details vm_name with
  | none => false
  | some vm => if vm.power_state == "poweredOn" then true else true

/-- The five fixed inventory names. -/
def inventory_names : List String :=
  ["web-server-01", "db-server-01", "app-server-01", "monitoring-01", "backup-server"]

end VSphere

namespace Scanner

/-- Embedding of the `SecurityScanResult` dataclass of
`enterprise_security_scanner.py`.  The `datetime` timestamp is abstracted to a
`Nat` reading of the clock. -/
structure SecurityScanResult where
  scan_id : String
  timestamp : Nat
  severity : String
  category : String
  description : String
  affected_resources : List String
  remediation : String
  compliance_impact : List (String × String)
deriving DecidableEq, Repr

/-- Embedding of `EnterpriseSecurityScanner._scan_network_security`; `now` is
the `datetime.now()` reading taken during the call. -/
def scan_network_security (now : Nat) (target : String) : List SecurityScanResult :=
  [{ scan_id := "net_" ++ target ++ "_" ++ toString now
     timestamp := now
     severity := "medium"
     category := "network_security"
     description := "Open ports detected on " ++ target
     affected_resources := [target]
     remediation := "Review and close unnecessary open ports"
     compliance_impact := [("nist_csf", "PR.AC-4"), ("iso_27001", "A.13.1.1"), ("soc_2", "CC6.1")] }]

/-- Embedding of `EnterpriseSecurityScanner._scan_application_security`. -/
def scan_application_security (now : Nat) (target : String) : List SecurityScanResult :=
  [{ scan_id := "app_" ++ target ++ "_" ++ toString now
     timestamp := now
     severity := "high"
     category := "application_security"
     description := "Potential SQL injection vulnerability in " ++ target
     affected_resources := [target]
     remediation := "Implement parameterized queries and input validation"
     compliance_impact := [("nist_csf", "PR.DS-5"), ("iso_27001", "A.14.2.1"), ("soc_2", "CC6.8")] }]

/-- Embedding of `EnterpriseSecurityScanner._check_compliance`. -/
def check_compliance (now : Nat) (target : String) : List SecurityScanResult :=
  [{ scan_id := "comp_" ++ target ++ "_" ++ toString now
     timestamp := now
     severity := "low"
     category := "compliance"
     description := "Missing security headers on " ++ target
     affected_resources := [target]
     remediation := "Implement security headers (HSTS, CSP, X-Frame-Options)"
     compliance_impact := [("nist_csf", "PR.DS-1"), ("iso_27001", "A.13.2.1"), ("soc_2", "CC6.7")] }]

/-- Embedding of `EnterpriseSecurityScanner._scan_target`: the three
sub-scans in order, with their respective clock readings. -/
def scan_target (n1 n2 n3 : Nat) (target : String) : List SecurityScanResult :=
  scan_network_security n1 target ++ scan_application_security n2 target ++
    check_compliance n3 target

/-- Embedding of `EnterpriseSecurityScanner.scan_infrastructure`:
`asyncio.gather` preserves task order and no task raises, so the result is the
concatenation of the per-target scans.  `clock i` supplies the three
`datetime.now()` readings of the `i`-th target's scan. -/
def scan_infrastructure (clock : Nat → Nat × Nat × Nat) (targets : List String) :
    List SecurityScanResult :=
  targets.enum.flatMap (fun p =>
    scan_target (clock p.1).1 (clock p.1).2.1 (clock p.1).2.2 p.2)

/-- The target-independent content of a scan result: everything except the
fields that interpolate the target (`scan_id`, `description`,
`affected_resources`) and the timestamp. -/
def coreContent (r : SecurityScanResult) : String × String × String × List (String × String) :=
  (r.severity, r.category, r.remediation, r.compliance_impact)

end Scanner

namespace InfraOrch

/-- The `ResourceType` enum of `infrastructure_orchestrator.py`. -/
inductive ResourceType where
  | compute
  | storage
  | network
  | database
  | load_balancer
  | security_group
  | container
  | kubernetes
deriving DecidableEq, Repr

/-- `ResourceType.value`: the string value of each enum member. -/
def ResourceType.value : ResourceType → String
  | .compute => "compute"
  | .storage => "storage"
  | .network => "network"
  | .database => "database"
  | .load_balancer => "load_balancer"
  | .security_group => "security_group"
  | .container => "container"
  | .kubernetes => "kubernetes"

/-- Embedding of the `Resource` dataclass, restricted to the fields the
claimed functions read: `state`, `config`, `tags`, `created_at` and
`updated_at` are never consulted by `_calculate_execution_order`,
`_group_by_dependency_level` or the result dicts of `_deploy_*_resource`. -/
structure Resource where
  id : String
  name : String
  type : ResourceType
  provider : String
  region : String
  dependencies : List String
deriving DecidableEq, Repr

/-- The resource ids, in list order (the key set of the Python dicts
`in_degree` and `graph`, whose insertion order is the resource order). -/
def ids (resources : List Resource) : List String := resources.map (·.id)

/-- `next((r for r in resources if r.id == x), None)`: first resource with a
given id. -/
def findResource (resources : List Resource) (x : String) : Option Resource :=
  resources.find? (fun r => r.id == x)

/-- The declared dependency list of the (first) resource with id `x`,
empty if no such resource exists. -/
def depsOf (resources : List Resource) (x : String) : List String :=
  match findResource resources x with
  | some r => r.dependencies
  | none => []

/-- The `in_degree` dict of `_calculate_execution_order` after the build
loop: each occurrence of a dependency of `x` that is itself a listed id
increments `in_degree[x]` by one.  Faithful for pairwise-distinct ids (the
dict is keyed by id). -/
def in_degree0 (resources : List Resource) (x : String) : Int :=
  ((depsOf resources x).filter (fun d => decide (d ∈ ids resources))).length

/-- The `graph` dict of `_calculate_execution_order` after the build loop:
`graph[d]` collects `r.id` once per occurrence of `d` in `r.dependencies`,
in resource order, provided `d` is a listed id.  Faithful for
pairwise-distinct ids. -/
def graphFn (resources : List Resource) (d : String) : List String :=
  resources.flatMap (fun r =>
    (r.dependencies.filter (fun dep => dep == d && decide (dep ∈ ids resources))).map
      (fun _ => r.id))

/-- One pass of the `for neighbor in graph[current]` loop body of Kahn's
algorithm: decrement the neighbour's in-degree and append it to the queue
when the decremented value is exactly `0` (degrees are modelled as `Int`,
like Python's unbounded ints). -/
def kahnStep (nbrs : List String) (deg : String → Int) (queue : List String) :
    (String → Int) × List String :=
  nbrs.foldl (fun p nb =>
    let d := fun y => if y = nb then p.1 nb - 1 else p.1 y
    if d nb = 0 then (d, p.2 ++ [nb]) else (d, p.2)) (deg, queue)

/-- The `while queue` loop of `_calculate_execution_order`: pop the front,
append it to the execution order, process its neighbours.  `fuel` is an
upper bound on the number of iterations; `kahn_fuel` below always suffices,
so the embedding agrees with the unbounded Python loop. -/
def kahnLoop (g : String → List String) :
    Nat → List String → (String → Int) → List String → List String
  | 0, _, _, order => order
  | _ + 1, [], _, order => order
  | fuel + 1, c :: rest, deg, order =>
    let p := kahnStep (g c) deg rest
    kahnLoop g fuel p.2 p.1 (order ++ [c])

/-- Total positive in-degree over a key list. -/
def degSum (L : List String) (deg : String → Int) : Nat :=
  (L.map (fun x => (deg x).toNat)).sum

/-- Iteration bound for `kahnLoop`: initial queue length plus total degree. -/
def kahn_fuel (resources : List Resource) : Nat :=
  let deg := in_degree0 resources
  let q0 := (ids resources).filter (fun x => decide (deg x = 0))
  q0.length + degSum (ids resources) deg + 1

/-- Embedding of `InfrastructureOrchestrator._calculate_execution_order`:
Kahn's algorithm over the in-degree graph, starting from the ids of initial
in-degree `0` in insertion (resource) order. -/
def calculate_execution_order (resources : List Resource) : List String :=
  let deg := in_degree0 resources
  let q0 := (ids resources).filter (fun x => decide (deg x = 0))
  kahnLoop (graphFn resources) (kahn_fuel resources) q0 deg []

/-- Embedding of the `DeploymentPlan` dataclass, restricted to the fields
the claims are about (`id`, `name`, `description`, cost and duration
estimates and timestamps are claim-irrelevant metadata). -/
structure DeploymentPlan where
  resources : List Resource
  execution_order : List String
  rollback_plan : List String
deriving Repr

/-- Embedding of `InfrastructureOrchestrator.create_deployment_plan` on the
already-parsed resource list: the execution order comes from
`_calculate_execution_order` and the rollback plan is
`list(reversed(execution_order))`. -/
def create_deployment_plan (resources : List Resource) : DeploymentPlan :=
  let execution_order := calculate_execution_order resources
  { resources := resources
    execution_order := execution_order
    rollback_plan := execution_order.reverse }

/-- The memo dict `resource_levels` of `_group_by_dependency_level`,
as an insertion-ordered association list. -/
abbrev Memo := List (String × Nat)

/-- Dict lookup in the memo. -/
def mlookup (m : Memo) (x : String) : Option Nat :=
  (m.find? (fun p => p.1 == x)).map (·.2)

/-- Dict assignment `m[x] = l`: overwrite in place if the key exists,
otherwise append. -/
def minsert (m : Memo) (x : String) (l : Nat) : Memo :=
  if m.any (fun p => p.1 == x) then
    m.map (fun p => if p.1 == x then (x, l) else p)
  else m ++ [(x, l)]

/-- Embedding of the inner `calculate_level` closure of
`_group_by_dependency_level`.  An id already on the current visit path
returns `0` (the cycle cut-off); a memoized id returns its memo value; an id
with no resource or no dependencies is memoized at `0`; otherwise the
`for dep in resource.dependencies` loop folds over the dependencies,
threading the memo and accumulating `max_dep_level`, and the level is the
accumulated maximum plus one; each dependency call receives the path
extended by the current id (`visited.copy()` after `visited.add`).
`fuel` bounds the recursion depth; `resources.length + 1` always suffices. -/
def calculate_level (resources : List Resource) (fuel : Nat) (rid : String)
    (visited : List String) (memo : Memo) : Nat × Memo :=
  match fuel with
  | 0 => (0, memo)
  | fuel' + 1 =>
    if rid ∈ visited then (0, memo)
    else
      match mlookup memo rid with
      | some l => (l, memo)
      | none =>
        match findResource resources rid with
        | none => (0, minsert memo rid 0)
        | some r =>
          if r.dependencies.isEmpty then (0, minsert memo rid 0)
          else
            let p := r.dependencies.foldl (fun acc d =>
              let q := calculate_level resources fuel' d (rid :: visited) acc.2
              (max acc.1 q.1, q.2)) (0, memo)
            (p.1 + 1, minsert p.2 rid (p.1 + 1))

/-- The dependency fold of `calculate_level` in recursion form: threads the
memo left to right and returns the maximum of the dependency levels
(`foldl_max_eq_deps` relates it to the fold). -/
def calc_level_deps (resources : List Resource) (fuel : Nat) (ds : List String)
    (visited : List String) (memo : Memo) : Nat × Memo :=
  match ds with
  | [] => (0, memo)
  | d :: ds' =>
    let p := calculate_level resources fuel d visited memo
    let q := calc_level_deps resources fuel ds' visited p.2
    (max p.1 q.1, q.2)

/-- Recursion-depth bound used by the embedding of
`_group_by_dependency_level`. -/
def group_fuel (resources : List Resource) : Nat := resources.length + 1

/-- The `levels` dict update of `_group_by_dependency_level`:
`levels.setdefault(level, []).append(x)`, insertion-ordered. -/
def levelsAdd (levels : List (Nat × List String)) (l : Nat) (x : String) :
    List (Nat × List String) :=
  if levels.any (fun p => p.1 == l) then
    levels.map (fun p => if p.1 == l then (p.1, p.2 ++ [x]) else p)
  else levels ++ [(l, [x])]

/-- One iteration of the `for resource in resources` loop of
`_group_by_dependency_level`: the resource's level is computed with a fresh
empty visit path but the shared memo, then recorded in the `levels` dict. -/
def groupStep (resources : List Resource) (acc : Memo × List (Nat × List String))
    (r : Resource) : Memo × List (Nat × List String) :=
  let p := calculate_level resources (group_fuel resources) r.id [] acc.1
  (p.2, levelsAdd acc.2 p.1 r.id)

/-- The `for resource in resources` loop of `_group_by_dependency_level`. -/
def groupRun (resources : List Resource) : Memo × List (Nat × List String) :=
  resources.foldl (groupStep resources) ([], [])

/-- Embedding of `InfrastructureOrchestrator._group_by_dependency_level`:
the insertion-ordered `levels` dict, keys in order of first appearance. -/
def group_by_dependency_level (resources : List Resource) : List (Nat × List String) :=
  (groupRun resources).2

/-- The memo left behind by `_group_by_dependency_level`. -/
def finalMemo (resources : List Resource) : Memo := (groupRun resources).1

/-- The level the grouping assigned to id `x`. -/
def levelOf (resources : List Resource) (x : String) : Nat :=
  (mlookup (finalMemo resources) x).getD 0

/-- The dependency edge relation of the orchestrator: `DepEdge d x` holds
when the (first) resource with id `x` declares `d` as a dependency and `d`
is itself a listed id — exactly the edges `_calculate_execution_order`
builds and the in-list dependencies `_group_by_dependency_level` recurses
into. -/
def DepEdge (resources : List Resource) (d x : String) : Prop :=
  d ∈ ids resources ∧ ∃ r, findResource resources x = some r ∧ d ∈ r.dependencies

/-- Acyclicity of the dependency graph restricted to listed ids. -/
def Acyclic (resources : List Resource) : Prop :=
  ∀ x, ¬ Relation.TransGen (DepEdge resources) x x

/-- A result dict of `_deploy_*_resource`, as an insertion-ordered dict. -/
abbrev DeployResult := List (String × String)

/-- The providers `_deploy_resource` dispatches on. -/
def valid_providers : List String := ["aws", "azure", "gcp", "vmware"]

/-- Embedding of `_deploy_aws_resource`'s result dict. -/
def deploy_aws_resource (r : Resource) : DeployResult :=
  [("provider", "aws"),
   ("resource_id", "aws-" ++ r.id),
   ("arn", "arn:aws:" ++ r.type.value ++ ":" ++ r.region ++ ":123456789012:" ++ r.name),
   ("status", "running"),
   ("endpoint", "https://" ++ r.name ++ "." ++ r.region ++ ".amazonaws.com")]

/-- Embedding of `_deploy_azure_resource`'s result dict. -/
def deploy_azure_resource (r : Resource) : DeployResult :=
  [("provider", "azure"),
   ("resource_id", "azure-" ++ r.id),
   ("resource_group", "default-rg"),
   ("status", "running"),
   ("endpoint", "https://" ++ r.name ++ "." ++ r.region ++ ".cloudapp.azure.com")]

/-- Embedding of `_deploy_gcp_resource`'s result dict. -/
def deploy_gcp_resource (r : Resource) : DeployResult :=
  [("provider", "gcp"),
   ("resource_id", "gcp-" ++ r.id),
   ("project", "default-project"),
   ("status", "running"),
   ("endpoint", "https://" ++ r.name ++ "." ++ r.region ++ ".googlecloud.com")]

/-- Embedding of `_deploy_vmware_resource`'s result dict.  `hashFn` is
Python's built-in `hash` on `str`, which is salted per process
(`PYTHONHASHSEED`): the source computes
`192.168.1.{hash(resource.id) % 254 + 1}`, and Python's `%` on a positive
divisor is the always-non-negative `Int.emod`.  `datacenterCfg` is
`self.config["providers"]["vmware"]["datacenter"]`. -/
def deploy_vmware_resource (hashFn : String → Int) (datacenterCfg : String)
    (r : Resource) : DeployResult :=
  [("provider", "vmware"),
   ("resource_id", "vm-" ++ r.id),
   ("datacenter", datacenterCfg),
   ("status", "running"),
   ("ip_address", "192.168.1." ++ toString (hashFn r.id % 254 + 1))]

/-- Embedding of `InfrastructureOrchestrator._deploy_resource`: dispatch on
the provider, raising `ValueError` (`Except.error`) for any other provider.
The `asyncio.sleep` and the state/timestamp mutations do not influence the
returned dict. -/
def deploy_resource (hashFn : String → Int) (datacenterCfg : String)
    (r : Resource) : Except String DeployResult :=
  if r.provider = "aws" then .ok (deploy_aws_resource r)
  else if r.provider = "azure" then .ok (deploy_azure_resource r)
  else if r.provider = "gcp" then .ok (deploy_gcp_resource r)
  else if r.provider = "vmware" then .ok (deploy_vmware_resource hashFn datacenterCfg r)
  else .error ("Unsupported provider: " ++ r.provider)

/-- The mutable parts of `execution_results` during a run, plus the
pending exception and a ghost log of the resources handed to
`_deploy_resource` (in call order). -/
structure RunState where
  deployed : List (String × DeployResult)
  errors : List String
  attempts : List String
  raised : Option String
deriving Repr

/-- Deploy one id in the sequential loop body: look the resource up
(`next(...)` raises `StopIteration` when absent — unreachable for orders
produced by planning), attempt it, record the result or the error message
`"Failed to deploy resource {id}: {e}"` and the pending exception. -/
def deployInto (hashFn : String → Int) (dc : String) (resources : List Resource)
    (st : RunState) (rid : String) : RunState :=
  match findResource resources rid with
  | none => { st with raised := some "StopIteration" }
  | some r =>
    match deploy_resource hashFn dc r with
    | .ok res =>
      { st with deployed := st.deployed ++ [(rid, res)], attempts := st.attempts ++ [rid] }
    | .error e =>
      { st with attempts := st.attempts ++ [rid],
                errors := st.errors ++ ["Failed to deploy resource " ++ rid ++ ": " ++ e],
                raised := some e }

/-- Embedding of `_execute_sequential_deployment`: deploy the execution
order front to back, re-raising at the first failure (nothing after it is
attempted). -/
def execute_sequential_deployment (hashFn : String → Int) (dc : String)
    (resources : List Resource) : List String → RunState → RunState
  | [], st => st
  | rid :: rest, st =>
    if st.raised.isSome then st
    else execute_sequential_deployment hashFn dc resources rest (deployInto hashFn dc resources st rid)

/-- The `for resource_id, task in tasks` await loop of
`_execute_parallel_deployment` for one dependency level: results are read in
task-creation order; the first failed task records its error message and
re-raises, abandoning the remaining awaits. -/
def awaitLevel (hashFn : String → Int) (dc : String) (resources : List Resource) :
    List String → RunState → RunState
  | [], st => st
  | rid :: rest, st =>
    if st.raised.isSome then st
    else
      match findResource resources rid with
      | none => { st with raised := some "StopIteration" }
      | some r =>
        match deploy_resource hashFn dc r with
        | .ok res =>
          awaitLevel hashFn dc resources rest
            { st with deployed := st.deployed ++ [(rid, res)] }
        | .error e =>
          { st with errors := st.errors ++ ["Failed to deploy resource " ++ rid ++ ": " ++ e],
                    raised := some e }

/-- One dependency level of `_execute_parallel_deployment`:
`asyncio.create_task` starts every member's deployment before the awaits, so
the whole level is attempted, then the results are awaited in order. -/
def runLevel (hashFn : String → Int) (dc : String) (resources : List Resource)
    (level : List String) (st : RunState) : RunState :=
  awaitLevel hashFn dc resources level { st with attempts := st.attempts ++ level }

/-- Embedding of `_execute_parallel_deployment`: iterate the `levels` dict
in insertion order; a raised exception skips all later levels. -/
def runLevels (hashFn : String → Int) (dc : String) (resources : List Resource) :
    List (Nat × List String) → RunState → RunState
  | [], st => st
  | (_, lvl) :: rest, st =>
    if st.raised.isSome then st
    else runLevels hashFn dc resources rest (runLevel hashFn dc resources lvl st)

/-- The fields of `execution_results` the claims are about. -/
structure ExecOutcome where
  status : String
  errors : List String
  deployed : List (String × DeployResult)
  attempts : List String
deriving Repr

/-- The empty `execution_results` at the start of a run. -/
def initState : RunState :=
  { deployed := [], errors := [], attempts := [], raised := none }

/-- Embedding of `InfrastructureOrchestrator.execute_deployment_plan`:
run the parallel or sequential executor per configuration; on an exception
the status becomes `"failed"` and `str(e)` is appended to the errors
(`_execute_rollback` only adds the separate `"rollback"` entry and cannot
change status or errors, so it is omitted); otherwise `"completed"`. -/
def execute_deployment_plan (hashFn : String → Int) (dc : String)
    (parallel : Bool) (plan : DeploymentPlan) : ExecOutcome :=
  let st :=
    if parallel then
      runLevels hashFn dc plan.resources (group_by_dependency_level plan.resources) initState
    else
      execute_sequential_deployment hashFn dc plan.resources plan.execution_order initState
  match st.raised with
  | none =>
    { status := "completed", errors := st.errors, deployed := st.deployed,
      attempts := st.attempts }
  | some e =>
    { status := "failed", errors := st.errors ++ [e], deployed := st.deployed,
      attempts := st.attempts }

/-- Number of dependency occurrences of `x` that are listed ids not yet in
`ord` — the value `in_degree[x]` holds after all members of `ord` have been
popped. -/
def countDeps (resources : List Resource) (x : String) (ord : List String) : Nat :=
  ((depsOf resources x).filter (fun d => decide (d ∈ ids resources ∧ d ∉ ord))).length

/-- Invariant of the `while queue` loop of `_calculate_execution_order`,
relating the queue, the in-degree table and the order built so far. -/
structure KahnInv (resources : List Resource) (q : List String) (deg : String → Int)
    (ord : List String) : Prop where
  nodup : (ord ++ q).Nodup
  subset : ∀ x ∈ ord ++ q, x ∈ ids resources
  degEq : ∀ x ∈ ids resources, deg x = (countDeps resources x ord : Int)
  queueZero : ∀ y ∈ q, deg y = 0
  zeroQueued : ∀ x ∈ ids resources, deg x = 0 → x ∈ ord ∨ x ∈ q
  presentDeps : ∀ x ∈ ord, ∀ d ∈ depsOf resources x, d ∈ ids resources → d ∈ ord
  noSelf : ∀ x ∈ ord, ¬(x ∈ depsOf resources x ∧ x ∈ ids resources)
  pair : ord.Pairwise (fun a b => ¬(b ∈ depsOf resources a ∧ b ∈ ids resources))

/-- Safety properties of the execution order: they hold for the list
returned by `_calculate_execution_order` for any input and any amount of
fuel, acyclic or not. -/
structure OrderOK (resources : List Resource) (res : List String) : Prop where
  nodup : res.Nodup
  subset : ∀ x ∈ res, x ∈ ids resources
  presentDeps : ∀ x ∈ res, ∀ d ∈ depsOf resources x, d ∈ ids resources → d ∈ res
  noSelf : ∀ x ∈ res, ¬(x ∈ depsOf resources x ∧ x ∈ ids resources)
  pair : res.Pairwise (fun a b => ¬(b ∈ depsOf resources a ∧ b ∈ ids resources))

/-- The ids an execution-order computation left out, as a subtype (used for
the pigeonhole argument below). -/
def Remaining (resources : List Resource) : Type :=
  {z : String // z ∈ ids resources ∧ z ∉ calculate_execution_order resources}

/-- Attempting id `x` succeeds: it resolves to a resource whose provider is
supported. -/
def AttOK (resources : List Resource) (x : String) : Prop :=
  ∃ r, findResource resources x = some r ∧ r.provider ∈ valid_providers

/-- `max` over the memoized levels of a dependency list, folded exactly as
the `for dep` loop of `calculate_level` accumulates `max_dep_level`; an id
without a memo entry contributes `0`. -/
def depsMax (m : Memo) (ds : List String) : Nat :=
  ds.foldr (fun d acc => max ((mlookup m d).getD 0) acc) 0

/-- Correctness of one memo entry of `_group_by_dependency_level` on
acyclic inputs: an id with no resource or no dependencies is recorded at
`0`, every other id one above the maximum over its dependencies' entries,
all of which are present. -/
def LevEq (resources : List Resource) (m : Memo) (x : String) (l : Nat) : Prop :=
  match findResource resources x with
  | none => l = 0
  | some r =>
    if r.dependencies.isEmpty then l = 0
    else (∀ d ∈ r.dependencies, (mlookup m d).isSome) ∧
      l = depsMax m r.dependencies + 1

/-- Memo invariant: every recorded level is correct. -/
def GoodM (resources : List Resource) (m : Memo) : Prop :=
  ∀ x l, mlookup m x = some l → LevEq resources m x l

/-- The memo after a call extends the memo before it, by entries whose keys
were unrecorded before the call and are not on the current visit path. -/
def MemoExt (visited : List String) (memo m' : Memo) : Prop :=
  ∃ Δ, m' = memo ++ Δ ∧
    ∀ k ∈ Δ.map (fun p : String × Nat => p.1), mlookup memo k = none ∧ k ∉ visited

/-- Number of listed ids not yet on the visit path: a bound on the
remaining recursion depth of `calculate_level`. -/
def freshCount (resources : List Resource) (visited : List String) : Nat :=
  ((ids resources).filter (fun x => decide (x ∉ visited))).length

/-- Postcondition shared by `calculate_level` and `calc_level_deps` calls
on acyclic inputs: the memo is extended by fresh off-path keys and stays
correct. -/
def LevelPost (resources : List Resource) (visited : List String)
    (memo m' : Memo) : Prop :=
  MemoExt visited memo m' ∧ GoodM resources m'

/-- Induction statement for `calculate_level` at a given fuel: under the
memo invariant, on a visit path of listed ids chained by dependency edges,
the call extends the memo correctly and records its own id at the returned
level. -/
def LevelCallOK (resources : List Resource) (fuel : Nat) : Prop :=
  ∀ rid visited memo,
    (∀ v ∈ visited, v ∈ ids resources) →
    (rid ∈ ids resources → List.Chain (DepEdge resources) rid visited) →
    freshCount resources visited < fuel →
    GoodM resources memo →
    LevelPost resources visited memo (calculate_level resources fuel rid visited memo).2 ∧
    mlookup (calculate_level resources fuel rid visited memo).2 rid =
      some (calculate_level resources fuel rid visited memo).1

/-- Induction statement for `calc_level_deps` at a given fuel: the fold
over a dependency list extends the memo correctly, records every
dependency, and returns the maximum of their recorded levels. -/
def DepsCallOK (resources : List Resource) (fuel : Nat) : Prop :=
  ∀ ds visited memo,
    (∀ v ∈ visited, v ∈ ids resources) →
    (∀ d ∈ ds, d ∈ ids resources → List.Chain (DepEdge resources) d visited) →
    freshCount resources visited < fuel →
    GoodM resources memo →
    LevelPost resources visited memo (calc_level_deps resources fuel ds visited memo).2 ∧
    (∀ d ∈ ds, (mlookup (calc_level_deps resources fuel ds visited memo).2 d).isSome) ∧
    (calc_level_deps resources fuel ds visited memo).1 =
      depsMax (calc_level_deps resources fuel ds visited memo).2 ds

end InfraOrch

/-! ### Concrete fixtures used by counterexamples and witnesses -/

deriving instance DecidableEq for Except

/-- Build a resource with the given id and dependency list. -/
def mkRes (i : String) (deps : List String) : InfraOrch.Resource :=
  { id := i, name := i, type := .compute, provider := "aws",
    region := "us-east-1", dependencies := deps }

/-- An acyclic three-resource example: C depends on B and A, B on A. -/
def acyEx : List InfraOrch.Resource :=
  [mkRes "A" [], mkRes "B" ["A"], mkRes "C" ["B", "A"]]

/-- A cyclic example: A and B form a two-cycle, C depends on A, D is free. -/
def cycEx : List InfraOrch.Resource :=
  [mkRes "A" ["B"], mkRes "B" ["A"], mkRes "C" ["A"], mkRes "D" []]

/-- An example with an unsupported provider on B. -/
def badEx : List InfraOrch.Resource :=
  [mkRes "A" [], { mkRes "B" [] with provider := "oops" }]

/-- A concrete VMware resource. -/
def cexVm : InfraOrch.Resource :=
  { id := "vm1", name := "vm1", type := .compute, provider := "vmware",
    region := "us-east-1", dependencies := [] }

/-- A concrete AWS resource. -/
def cexAws : InfraOrch.Resource :=
  { id := "web", name := "web", type := .compute, provider := "aws",
    region := "us-east-1", dependencies := [] }

/-- A string-hash function as seen under one process salt. -/
def hashZero : String → Int := fun _ => 0

/-- A string-hash function as seen under another process salt. -/
def hashOne : String → Int := fun _ => 1

/-- A virtual machine record with the datacenter field blanked, for stating
which parts of the inventory are independent of the datacenter argument. -/
def eraseDatacenter (vm : VSphere.VirtualMachine) : VSphere.VirtualMachine :=
  { vm with datacenter := none }

namespace InfraOrch

/-! ### Basic facts about the id/dependency encoding -/

theorem ids_cons (a : Resource) (l : List Resource) : ids (a :: l) = a.id :: ids l := rfl

theorem mem_ids_iff {resources : List Resource} {x : String} :
    x ∈ ids resources ↔ ∃ r ∈ resources, r.id = x := by
  simp [ids]

theorem findResource_eq_some_of_nodup {resources : List Resource}
    (hN : (ids resources).Nodup) {r : Resource} (hr : r ∈ resources) :
    findResource resources r.id = some r := by
  induction resources with
  | nil => cases hr
  | cons a l ih =>
    rw [ids_cons, List.nodup_cons] at hN
    rcases List.mem_cons.1 hr with rfl | hr
    · simp [findResource, List.find?]
    · have hne : (a.id == r.id) = false := by
        rw [beq_eq_false_iff_ne]
        intro h
        exact hN.1 (h ▸ (mem_ids_iff.2 ⟨r, hr, rfl⟩))
      simpa [findResource, List.find?, hne] using ih hN.2 hr

theorem findResource_isSome_of_mem_ids {resources : List Resource} {x : String}
    (hx : x ∈ ids resources) : ∃ r, findResource resources x = some r ∧ r.id = x := by
  rcases mem_ids_iff.1 hx with ⟨r, hr, rfl⟩
  clear hx
  induction resources with
  | nil => cases hr
  | cons a l ih =>
    by_cases h : a.id == r.id
    · exact ⟨a, by simp [findResource, List.find?, h], by simpa using h⟩
    · rcases List.mem_cons.1 hr with rfl | hr
      · simp at h
      · rcases ih hr with ⟨r', h1, h2⟩
        exact ⟨r', by simpa [findResource, List.find?, h] using h1, h2⟩

theorem depsOf_eq_of_find {resources : List Resource} {x : String} {r : Resource}
    (h : findResource resources x = some r) : depsOf resources x = r.dependencies := by
  simp [depsOf, h]

theorem findResource_mem {resources : List Resource} {x : String} {r : Resource}
    (h : findResource resources x = some r) : r ∈ resources ∧ r.id = x := by
  unfold findResource at h
  have h1 := List.find?_some h
  have h2 := List.mem_of_find?_eq_some h
  exact ⟨h2, by simpa using h1⟩

theorem depsOf_mem_of_mem {resources : List Resource} (hN : (ids resources).Nodup)
    {r : Resource} (hr : r ∈ resources) : depsOf resources r.id = r.dependencies :=
  depsOf_eq_of_find (findResource_eq_some_of_nodup hN hr)

/-! ### Facts about the adjacency encoding `graphFn` -/

theorem graphFn_subset {resources : List Resource} {c y : String}
    (hy : y ∈ graphFn resources c) : y ∈ ids resources := by
  unfold graphFn at hy
  rcases List.mem_flatMap.1 hy with ⟨r, hr, hmem⟩
  rcases List.mem_map.1 hmem with ⟨_, _, rfl⟩
  exact mem_ids_iff.2 ⟨r, hr, rfl⟩

theorem count_flatMap_eq_sum {α β : Type} [DecidableEq β] (f : α → List β) (x : β) :
    ∀ m : List α, ((m.flatMap f).count x) = (m.map (fun a => (f a).count x)).sum := by
  intro m
  induction m with
  | nil => rfl
  | cons a l ih => simp [List.flatMap_cons, List.count_append, ih]

theorem sum_map_ite_single {m : List Resource} (hN : (ids m).Nodup) {x : String}
    {r₀ : Resource} (hr : r₀ ∈ m) (hx : r₀.id = x) (k : Resource → Nat) :
    (m.map (fun r => if r.id = x then k r else 0)).sum = k r₀ := by
  induction m with
  | nil => cases hr
  | cons a l ih =>
    rw [ids_cons, List.nodup_cons] at hN
    rcases List.mem_cons.1 hr with rfl | hr
    · have hz : (l.map (fun r => if r.id = r₀.id then k r else 0)).sum = 0 := by
        apply List.sum_eq_zero
        intro n hn
        rcases List.mem_map.1 hn with ⟨r, hrl, rfl⟩
        have : r.id ≠ r₀.id := by
          intro h
          exact hN.1 (h ▸ (mem_ids_iff.2 ⟨r, hrl, rfl⟩))
        simp [this]
      subst hx
      simp [hz]
    · have hax : a.id ≠ x := by
        intro h
        exact hN.1 (by rw [h, ← hx]; exact mem_ids_iff.2 ⟨r₀, hr, rfl⟩)
      simp [hax, ih hN.2 hr]

theorem count_graphFn {resources : List Resource} (hN : (ids resources).Nodup)
    {c : String} (hc : c ∈ ids resources) {r₀ : Resource} (hr : r₀ ∈ resources) :
    (graphFn resources c).count r₀.id = r₀.dependencies.count c := by
  unfold graphFn
  rw [count_flatMap_eq_sum]
  have hmap : ∀ r : Resource,
      ((r.dependencies.filter (fun dep => dep == c && decide (dep ∈ ids resources))).map
        (fun _ => r.id)).count r₀.id =
      if r.id = r₀.id then
        (r.dependencies.filter (fun dep => dep == c && decide (dep ∈ ids resources))).length
      else 0 := by
    intro r
    rw [List.map_const', List.count_replicate]
    by_cases h : r.id = r₀.id
    · simp [h]
    · simp [h, Ne.symm h]
  calc (resources.map (fun r =>
          ((r.dependencies.filter (fun dep => dep == c && decide (dep ∈ ids resources))).map
            (fun _ => r.id)).count r₀.id)).sum
      = (resources.map (fun r => if r.id = r₀.id then
          (r.dependencies.filter (fun dep => dep == c && decide (dep ∈ ids resources))).length
          else 0)).sum := by
        congr 1
        exact List.map_congr_left (fun r _ => hmap r)
    _ = (r₀.dependencies.filter (fun dep => dep == c && decide (dep ∈ ids resources))).length :=
        sum_map_ite_single hN hr rfl _
    _ = r₀.dependencies.count c := by
        rw [List.count, List.countP_eq_length_filter]
        congr 1
        apply List.filter_congr
        intro d _
        by_cases h : d = c
        · subst h
          simp [hc]
        · simp [h]

theorem count_eq_zero_of_not_mem_graph {resources : List Resource} {c y : String}
    (hy : y ∉ ids resources) : (graphFn resources c).count y = 0 := by
  rw [List.count_eq_zero]
  exact fun hmem => hy (graphFn_subset hmem)

/-! ### Pending-dependency counts -/

theorem countDeps_nil (resources : List Resource) (x : String) :
    (countDeps resources x [] : Int) = in_degree0 resources x := by
  unfold countDeps in_degree0
  congr 2
  apply List.filter_congr
  intro d _
  simp

theorem length_filter_split {α : Type} [DecidableEq α] (p q : α → Bool) (c : α)
    (hpc : p c = true) (hqc : q c = false) (hpq : ∀ d, d ≠ c → q d = p d) :
    ∀ l : List α, (l.filter p).length = (l.filter q).length + l.count c := by
  intro l
  induction l with
  | nil => rfl
  | cons d l ih =>
    by_cases hdc : d = c
    · subst hdc
      simp [List.filter_cons, hpc, hqc, List.count_cons_self]
      omega
    · have h3 : (d :: l).count c = l.count c :=
        List.count_cons_of_ne (fun h => hdc h.symm) l
      rw [List.filter_cons, List.filter_cons, hpq d hdc, h3]
      cases hp : p d <;> simp [hp] <;> omega

theorem filter_split_count {L ord : List String} {c : String} (l : List String)
    (hcL : c ∈ L) (hcord : c ∉ ord) :
    (l.filter (fun d => decide (d ∈ L ∧ d ∉ ord))).length =
      (l.filter (fun d => decide (d ∈ L ∧ d ∉ ord ++ [c]))).length + l.count c :=
  length_filter_split _ _ c (by simp [hcL, hcord]) (by simp)
    (fun d hdc => by simp [List.mem_append, hdc]) l

theorem countDeps_append_single {resources : List Resource} {x c : String} {ord : List String}
    (hcL : c ∈ ids resources) (hcord : c ∉ ord) :
    countDeps resources x ord =
      countDeps resources x (ord ++ [c]) + (depsOf resources x).count c :=
  filter_split_count (depsOf resources x) hcL hcord

/-! ### Properties of one Kahn iteration -/

theorem kahnStep_cons (nb : String) (tl : List String) (deg : String → Int)
    (q : List String) :
    kahnStep (nb :: tl) deg q =
      kahnStep tl (fun y => if y = nb then deg nb - 1 else deg y)
        (if deg nb - 1 = 0 then q ++ [nb] else q) := by
  unfold kahnStep
  rw [List.foldl_cons]
  congr 1
  by_cases h : deg nb - 1 = 0 <;> simp [h]

theorem kahnStep_deg (nbrs : List String) :
    ∀ (deg : String → Int) (q : List String) (x : String),
      (kahnStep nbrs deg q).1 x = deg x - nbrs.count x := by
  induction nbrs with
  | nil =>
    intro deg q x
    simp [kahnStep]
  | cons nb tl ih =>
    intro deg q x
    rw [kahnStep_cons, ih]
    by_cases hx : x = nb
    · subst hx
      rw [if_pos rfl, List.count_cons_self]
      push_cast
      omega
    · rw [if_neg hx, List.count_cons_of_ne hx]

theorem kahnStep_queue_extends (nbrs : List String) :
    ∀ (deg : String → Int) (q : List String),
      ∃ extra, (kahnStep nbrs deg q).2 = q ++ extra := by
  induction nbrs with
  | nil =>
    intro deg q
    exact ⟨[], by simp [kahnStep]⟩
  | cons nb tl ih =>
    intro deg q
    rw [kahnStep_cons]
    by_cases h : deg nb - 1 = 0
    · rw [if_pos h]
      rcases ih _ (q ++ [nb]) with ⟨extra, he⟩
      exact ⟨nb :: extra, by rw [he]; simp⟩
    · rw [if_neg h]
      exact ih _ q

theorem kahnStep_queue (nbrs : List String) :
    ∀ (deg : String → Int) (q : List String),
      (∀ y ∈ q, deg y ≤ 0) → q.Nodup →
      ∃ extra, (kahnStep nbrs deg q).2 = q ++ extra ∧
        (∀ y ∈ extra, y ∈ nbrs ∧ 1 ≤ deg y) ∧
        (q ++ extra).Nodup ∧
        (∀ y ∈ q ++ extra, (kahnStep nbrs deg q).1 y ≤ 0) := by
  induction nbrs with
  | nil =>
    intro deg q hq hqn
    refine ⟨[], by simp [kahnStep], by simp, by simpa using hqn, ?_⟩
    intro y hy
    simp only [kahnStep, List.foldl_nil]
    exact hq y (by simpa using hy)
  | cons nb tl ih =>
    intro deg q hq hqn
    rw [kahnStep_cons]
    by_cases h : deg nb - 1 = 0
    · rw [if_pos h]
      have hnbq : nb ∉ q := by
        intro hmem
        have := hq nb hmem
        omega
      have hq1 : ∀ y ∈ q ++ [nb], (fun y => if y = nb then deg nb - 1 else deg y) y ≤ 0 := by
        intro y hy
        rcases List.mem_append.1 hy with hy2 | hy2
        · by_cases hynb : y = nb
          · subst hynb
            exact absurd hy2 hnbq
          · simpa [hynb] using hq y hy2
        · have hx : y = nb := by simpa using hy2
          subst hx
          simp [h]
      have hqn1 : (q ++ [nb]).Nodup := by
        rw [List.nodup_append]
        refine ⟨hqn, List.nodup_singleton _, ?_⟩
        intro a ha hb
        have : a = nb := by simpa using hb
        subst this
        exact hnbq ha
      rcases ih _ (q ++ [nb]) hq1 hqn1 with ⟨extra, he1, he2, he3, he4⟩
      refine ⟨nb :: extra, by rw [he1]; simp, ?_, ?_, ?_⟩
      · intro y hy
        rcases List.mem_cons.1 hy with rfl | hy
        · exact ⟨List.mem_cons_self _ _, by omega⟩
        · rcases he2 y hy with ⟨hmem, hge⟩
          refine ⟨List.mem_cons_of_mem _ hmem, ?_⟩
          by_cases hynb : y = nb
          · subst hynb
            simp at hge
            omega
          · simpa [hynb] using hge
      · have : q ++ nb :: extra = (q ++ [nb]) ++ extra := by simp
        rw [this]
        exact he3
      · intro y hy
        apply he4
        have : q ++ nb :: extra = (q ++ [nb]) ++ extra := by simp
        rw [this] at hy
        exact hy
    · rw [if_neg h]
      have hq1 : ∀ y ∈ q, (fun y => if y = nb then deg nb - 1 else deg y) y ≤ 0 := by
        intro y hy
        by_cases hynb : y = nb
        · subst hynb
          have := hq y hy
          simp
          omega
        · simpa [hynb] using hq y hy
      rcases ih _ q hq1 hqn with ⟨extra, he1, he2, he3, he4⟩
      refine ⟨extra, he1, ?_, he3, he4⟩
      intro y hy
      rcases he2 y hy with ⟨hmem, hge⟩
      refine ⟨List.mem_cons_of_mem _ hmem, ?_⟩
      by_cases hynb : y = nb
      · subst hynb
        simp at hge
        omega
      · simpa [hynb] using hge

theorem kahnStep_zero_mem (nbrs : List String) :
    ∀ (deg : String → Int) (q : List String) (y : String),
      y ∈ nbrs → (kahnStep nbrs deg q).1 y = 0 → y ∈ (kahnStep nbrs deg q).2 := by
  induction nbrs with
  | nil =>
    intro deg q y hy
    cases hy
  | cons nb tl ih =>
    intro deg q y hy h0
    rw [kahnStep_cons] at h0 ⊢
    by_cases hmem : y ∈ tl
    · exact ih _ _ y hmem h0
    · have hynb : y = nb := by
        rcases List.mem_cons.1 hy with rfl | hm
        · rfl
        · exact absurd hm hmem
      subst hynb
      have hcnt : tl.count y = 0 := List.count_eq_zero.2 hmem
      rw [kahnStep_deg, hcnt] at h0
      have hdy : deg y - 1 = 0 := by
        simp at h0
        omega
      rw [if_pos hdy]
      rcases kahnStep_queue_extends tl _ (q ++ [y]) with ⟨extra, he⟩
      rw [he]
      simp

/-! ### The Kahn loop invariant -/

theorem countDeps_eq_zero {resources : List Resource} {x : String} {ord : List String} :
    countDeps resources x ord = 0 ↔
      ∀ d ∈ depsOf resources x, d ∈ ids resources → d ∈ ord := by
  unfold countDeps
  rw [List.length_eq_zero, List.filter_eq_nil_iff]
  constructor
  · intro h d hd hdL
    by_contra hd2
    exact h d hd (by simp [hdL, hd2])
  · intro h d hd
    simp only [decide_eq_true_eq, not_and, not_not]
    exact h d hd

theorem KahnInv.disjoint {resources : List Resource} {q : List String}
    {deg : String → Int} {ord : List String} (inv : KahnInv resources q deg ord) :
    ∀ a ∈ ord, a ∉ q :=
  fun _a ha hq => (List.nodup_append.1 inv.nodup).2.2 ha hq

theorem KahnInv.ord_deg_zero {resources : List Resource} {q : List String}
    {deg : String → Int} {ord : List String} (inv : KahnInv resources q deg ord) :
    ∀ y ∈ ord, deg y = 0 := by
  intro y hy
  have hyL := inv.subset y (List.mem_append_left _ hy)
  rw [inv.degEq y hyL]
  have h0 : countDeps resources y ord = 0 :=
    countDeps_eq_zero.2 (fun d hd hdL => inv.presentDeps y hy d hd hdL)
  simp [h0]

theorem KahnInv.step {resources : List Resource} (hN : (ids resources).Nodup)
    {c : String} {rest : List String} {deg : String → Int} {ord : List String}
    (inv : KahnInv resources (c :: rest) deg ord) :
    KahnInv resources (kahnStep (graphFn resources c) deg rest).2
      (kahnStep (graphFn resources c) deg rest).1 (ord ++ [c]) := by
  have hcq : c ∈ c :: rest := List.mem_cons_self _ _
  have hcL : c ∈ ids resources := inv.subset c (List.mem_append_right _ hcq)
  have hcord : c ∉ ord := fun h => inv.disjoint c h hcq
  have hdegc : deg c = 0 := inv.queueZero c hcq
  have hc0 : countDeps resources c ord = 0 := by
    have h1 := inv.degEq c hcL
    rw [hdegc] at h1
    exact_mod_cast h1.symm
  have hordn : ord.Nodup := (List.nodup_append.1 inv.nodup).1
  have hrestn : rest.Nodup := ((List.nodup_append.1 inv.nodup).2.1).of_cons
  have hq0 : ∀ y ∈ rest, deg y ≤ 0 :=
    fun y hy => le_of_eq (inv.queueZero y (List.mem_cons_of_mem _ hy))
  obtain ⟨extra, he1, he2, he3, he4⟩ :=
    kahnStep_queue (graphFn resources c) deg rest hq0 hrestn
  have hdeg' : ∀ x, (kahnStep (graphFn resources c) deg rest).1 x =
      deg x - ((graphFn resources c).count x : Int) :=
    fun x => kahnStep_deg _ deg rest x
  have hextraL : ∀ y ∈ extra, y ∈ ids resources :=
    fun y hy => graphFn_subset (he2 y hy).1
  have hextra_ord : ∀ y ∈ extra, y ∉ ord := by
    intro y hy hmem
    have h1 := (he2 y hy).2
    have h2 := inv.ord_deg_zero y hmem
    omega
  have hextra_c : ∀ y ∈ extra, y ≠ c := by
    intro y hy h
    have h1 := (he2 y hy).2
    rw [h, hdegc] at h1
    omega
  have hdegEq' : ∀ x ∈ ids resources, (kahnStep (graphFn resources c) deg rest).1 x =
      (countDeps resources x (ord ++ [c]) : Int) := by
    intro x hxL
    rcases mem_ids_iff.1 hxL with ⟨r₀, hr₀, rfl⟩
    have hcount : (graphFn resources c).count r₀.id = r₀.dependencies.count c :=
      count_graphFn hN hcL hr₀
    have hdeps : depsOf resources r₀.id = r₀.dependencies := depsOf_mem_of_mem hN hr₀
    have hsplit := @countDeps_append_single resources r₀.id c ord hcL hcord
    rw [hdeg', hcount, inv.degEq _ hxL]
    rw [hdeps] at hsplit
    omega
  have hmemq' : ∀ y, y ∈ (kahnStep (graphFn resources c) deg rest).2 →
      y ∈ ids resources := by
    intro y hy
    rw [he1] at hy
    rcases List.mem_append.1 hy with hy | hy
    · exact inv.subset y (List.mem_append_right _ (List.mem_cons_of_mem _ hy))
    · exact hextraL y hy
  refine ⟨?_, ?_, hdegEq', ?_, ?_, ?_, ?_, ?_⟩
  · -- nodup
    rw [he1]
    have heq : ord ++ [c] ++ (rest ++ extra) = ((ord ++ [c]) ++ rest) ++ extra := by simp
    rw [heq, List.nodup_append]
    refine ⟨?_, he3.of_append_right, ?_⟩
    · have heq2 : ord ++ c :: rest = (ord ++ [c]) ++ rest := by simp
      rw [← heq2]
      exact inv.nodup
    · intro a ha hb
      rcases List.mem_append.1 ha with ha | ha
      · rcases List.mem_append.1 ha with ha | ha
        · exact hextra_ord a hb ha
        · exact hextra_c a hb (by simpa using ha)
      · exact (List.nodup_append.1 he3).2.2 ha hb
  · -- subset
    intro x hx
    rcases List.mem_append.1 hx with hx | hx
    · rcases List.mem_append.1 hx with hx | hx
      · exact inv.subset x (List.mem_append_left _ hx)
      · have hxc : x = c := by simpa using hx
        subst hxc
        exact hcL
    · exact hmemq' x hx
  · -- queueZero
    intro y hy
    have hyL : y ∈ ids resources := hmemq' y hy
    rw [he1] at hy
    have hyle := he4 y hy
    have hynn := hdegEq' y hyL
    omega
  · -- zeroQueued
    intro x hxL hx0
    by_cases hcz : (graphFn resources c).count x = 0
    · have hdx : deg x = 0 := by
        have h1 := hdeg' x
        rw [hcz] at h1
        omega
      rcases inv.zeroQueued x hxL hdx with hx | hx
      · exact Or.inl (List.mem_append_left _ hx)
      · rcases List.mem_cons.1 hx with rfl | hx
        · exact Or.inl (List.mem_append_right _ (by simp))
        · refine Or.inr ?_
          rw [he1]
          exact List.mem_append_left _ hx
    · have hmem : x ∈ graphFn resources c :=
        List.count_pos_iff.1 (Nat.pos_of_ne_zero hcz)
      exact Or.inr (kahnStep_zero_mem _ deg rest x hmem hx0)
  · -- presentDeps
    intro x hx d hd hdL
    rcases List.mem_append.1 hx with hx | hx
    · exact List.mem_append_left _ (inv.presentDeps x hx d hd hdL)
    · have hxc : x = c := by simpa using hx
      subst hxc
      exact List.mem_append_left _ (countDeps_eq_zero.1 hc0 d hd hdL)
  · -- noSelf
    intro x hx hcontra
    rcases List.mem_append.1 hx with hx | hx
    · exact inv.noSelf x hx hcontra
    · have hxc : x = c := by simpa using hx
      subst hxc
      exact hcord (countDeps_eq_zero.1 hc0 x hcontra.1 hcontra.2)
  · -- pair
    rw [List.pairwise_append]
    refine ⟨inv.pair, List.pairwise_singleton _ _, ?_⟩
    intro a ha b hb
    have hbc : b = c := by simpa using hb
    subst hbc
    intro hcontra
    exact hcord (inv.presentDeps a ha b hcontra.1 hcontra.2)

/-! ### Safety of the produced order -/

theorem KahnInv.orderOK {resources : List Resource} {q : List String}
    {deg : String → Int} {ord : List String} (inv : KahnInv resources q deg ord) :
    OrderOK resources ord :=
  ⟨(List.nodup_append.1 inv.nodup).1,
   fun x hx => inv.subset x (List.mem_append_left _ hx),
   inv.presentDeps, inv.noSelf, inv.pair⟩

theorem kahnLoop_safety {resources : List Resource} (hN : (ids resources).Nodup) :
    ∀ (fuel : Nat) (q : List String) (deg : String → Int) (ord : List String),
      KahnInv resources q deg ord →
      OrderOK resources (kahnLoop (graphFn resources) fuel q deg ord) := by
  intro fuel
  induction fuel with
  | zero =>
    intro q deg ord inv
    exact inv.orderOK
  | succ fuel ih =>
    intro q deg ord inv
    cases q with
    | nil => exact inv.orderOK
    | cons c rest =>
      show OrderOK resources (kahnLoop (graphFn resources) fuel
        (kahnStep (graphFn resources c) deg rest).2
        (kahnStep (graphFn resources c) deg rest).1 (ord ++ [c]))
      exact ih _ _ _ (inv.step hN)

theorem kahnInv_init (resources : List Resource) (hN : (ids resources).Nodup) :
    KahnInv resources
      ((ids resources).filter (fun x => decide (in_degree0 resources x = 0)))
      (in_degree0 resources) [] := by
  refine ⟨?_, ?_, ?_, ?_, ?_, ?_, ?_, ?_⟩
  · simpa using hN.filter _
  · intro x hx
    simp only [List.nil_append] at hx
    exact List.mem_of_mem_filter hx
  · exact fun x _ => (countDeps_nil resources x).symm
  · intro y hy
    have := List.of_mem_filter hy
    simpa using this
  · intro x hxL hx0
    exact Or.inr (List.mem_filter.2 ⟨hxL, by simpa using hx0⟩)
  · intro x hx
    cases hx
  · intro x hx
    cases hx
  · exact List.Pairwise.nil

theorem execution_order_OK (resources : List Resource) (hN : (ids resources).Nodup) :
    OrderOK resources (calculate_execution_order resources) :=
  kahnLoop_safety hN _ _ _ _ (kahnInv_init resources hN)

/-! ### Positions in an OK order respect the dependency edges -/

theorem OrderOK.edge_mem_lt {resources : List Resource} {res : List String}
    (h : OrderOK resources res) {d x : String}
    (he : DepEdge resources d x) (hx : x ∈ res) :
    d ∈ res ∧ res.indexOf d < res.indexOf x := by
  obtain ⟨hdL, r, hfind, hdr⟩ := he
  have hdeps : d ∈ depsOf resources x := by
    rw [depsOf_eq_of_find hfind]
    exact hdr
  have hdmem : d ∈ res := h.presentDeps x hx d hdeps hdL
  refine ⟨hdmem, ?_⟩
  obtain ⟨s, t, rfl⟩ := List.append_of_mem hx
  have hxs : x ∉ s :=
    fun hmem => (List.nodup_append.1 h.nodup).2.2 hmem (List.mem_cons_self _ _)
  have hd_where : d ∈ s := by
    rcases List.mem_append.1 hdmem with hd | hd
    · exact hd
    · rcases List.mem_cons.1 hd with hdx | hd
      · rw [hdx] at hdeps hdL
        exact absurd ⟨hdeps, hdL⟩ (h.noSelf x hx)
      · have hp := h.pair
        rw [List.pairwise_append] at hp
        have hxt := (List.pairwise_cons.1 hp.2.1).1 d hd
        exact absurd ⟨hdeps, hdL⟩ hxt
  rw [List.indexOf_append_of_mem hd_where, List.indexOf_append_of_not_mem hxs,
    List.indexOf_cons_self]
  have h1 : s.indexOf d < s.length := List.indexOf_lt_length.2 hd_where
  omega

theorem OrderOK.rtrans_le {resources : List Resource} {res : List String}
    (h : OrderOK resources res) {y x : String}
    (hr : Relation.ReflTransGen (DepEdge resources) y x) :
    x ∈ res → y ∈ res ∧ res.indexOf y ≤ res.indexOf x := by
  induction hr with
  | refl =>
    intro hx
    exact ⟨hx, le_refl _⟩
  | tail h1 h2 ih =>
    intro hx
    obtain ⟨hb, hlt⟩ := h.edge_mem_lt h2 hx
    obtain ⟨hy, hle⟩ := ih hb
    exact ⟨hy, le_trans hle (le_of_lt hlt)⟩

theorem OrderOK.no_cycle_mem {resources : List Resource} {res : List String}
    (h : OrderOK resources res) {y : String}
    (hc : Relation.TransGen (DepEdge resources) y y) : y ∉ res := by
  intro hy
  cases hc with
  | single h2 =>
    obtain ⟨_, hlt⟩ := h.edge_mem_lt h2 hy
    omega
  | tail h1 h2 =>
    obtain ⟨hb, hlt⟩ := h.edge_mem_lt h2 hy
    obtain ⟨_, hle⟩ := h.rtrans_le h1.to_reflTransGen hb
    omega

theorem OrderOK.below_cycle_not_mem {resources : List Resource} {res : List String}
    (h : OrderOK resources res) {y x : String}
    (hc : Relation.TransGen (DepEdge resources) y y)
    (hr : Relation.TransGen (DepEdge resources) y x) : x ∉ res := by
  intro hx
  obtain ⟨hy, _⟩ := h.rtrans_le hr.to_reflTransGen hx
  exact h.no_cycle_mem hc hy

/-! ### What the sequential executor attempts -/

theorem deployInto_attempts (hashFn : String → Int) (dc : String)
    (resources : List Resource) (st : RunState) (rid : String) :
    (deployInto hashFn dc resources st rid).attempts = st.attempts ∨
    (deployInto hashFn dc resources st rid).attempts = st.attempts ++ [rid] := by
  unfold deployInto
  split
  · exact Or.inl rfl
  · split
    · exact Or.inr rfl
    · exact Or.inr rfl

theorem seq_attempts_subset (hashFn : String → Int) (dc : String)
    (resources : List Resource) :
    ∀ (order : List String) (st : RunState),
      ∀ x ∈ (execute_sequential_deployment hashFn dc resources order st).attempts,
        x ∈ st.attempts ++ order := by
  intro order
  induction order with
  | nil =>
    intro st x hx
    exact List.mem_append_left _ hx
  | cons rid rest ih =>
    intro st x hx
    unfold execute_sequential_deployment at hx
    by_cases hr : st.raised.isSome
    · rw [if_pos hr] at hx
      exact List.mem_append_left _ hx
    · rw [if_neg hr] at hx
      have hmem := ih (deployInto hashFn dc resources st rid) x hx
      rcases List.mem_append.1 hmem with hmem | hmem
      · rcases deployInto_attempts hashFn dc resources st rid with heq | heq
        · rw [heq] at hmem
          exact List.mem_append_left _ hmem
        · rw [heq] at hmem
          rcases List.mem_append.1 hmem with hmem | hmem
          · exact List.mem_append_left _ hmem
          · have hx2 : x = rid := by simpa using hmem
            subst hx2
            exact List.mem_append_right _ (List.mem_cons_self _ _)
      · exact List.mem_append_right _ (List.mem_cons_of_mem _ hmem)

/-! ### Termination measure and completeness of the Kahn loop -/

theorem sum_map_add (l : List String) (f g : String → Nat) :
    (l.map (fun x => f x + g x)).sum = (l.map f).sum + (l.map g).sum := by
  induction l with
  | nil => rfl
  | cons a l ih =>
    simp only [List.map_cons, List.sum_cons, ih]
    omega

theorem sum_map_ite_one {L : List String} (hN : L.Nodup) {e : String} (he : e ∈ L) :
    (L.map (fun x => if x = e then 1 else 0)).sum = 1 := by
  induction L with
  | nil => cases he
  | cons a L ih =>
    rw [List.nodup_cons] at hN
    rcases List.mem_cons.1 he with heq | he
    · have hz : (L.map (fun x => if x = e then 1 else 0)).sum = 0 := by
        apply List.sum_eq_zero
        intro n hn
        rcases List.mem_map.1 hn with ⟨x, hx, rfl⟩
        have hxe : x ≠ e := by
          intro h
          rw [h, heq] at hx
          exact hN.1 hx
        simp [hxe]
      simp [heq.symm, hz]
    · have ha : a ≠ e := by
        intro h
        rw [h] at hN
        exact hN.1 he
      simp [ha, ih hN.2 he]

theorem sum_map_count_cons (L : List String) (e : String) (l : List String) :
    (L.map (fun x => (e :: l).count x)).sum =
      (L.map (fun x => l.count x)).sum + (L.map (fun x => if x = e then 1 else 0)).sum := by
  induction L with
  | nil => rfl
  | cons a L ih =>
    simp only [List.map_cons, List.sum_cons]
    have hc : (e :: l).count a = l.count a + if a = e then 1 else 0 := by
      by_cases h : a = e <;> simp [List.count_cons, h]
    rw [hc, ih]
    omega

theorem sum_map_count {L : List String} (hN : L.Nodup) :
    ∀ l : List String, (∀ y ∈ l, y ∈ L) → (L.map (fun x => l.count x)).sum = l.length := by
  intro l
  induction l with
  | nil =>
    intro
    simp
  | cons e l ih =>
    intro hsub
    have he : e ∈ L := hsub e (List.mem_cons_self _ _)
    rw [sum_map_count_cons, ih (fun y hy => hsub y (List.mem_cons_of_mem _ hy)),
      sum_map_ite_one hN he, List.length_cons]

theorem nodup_subset_length_le {l L : List String} (hn : l.Nodup) (hsub : ∀ y ∈ l, y ∈ L) :
    l.length ≤ L.length := by
  have h1 : l.toFinset.card = l.length := List.toFinset_card_of_nodup hn
  have h2 : l.toFinset ⊆ L.toFinset := by
    intro a ha
    rw [List.mem_toFinset] at ha ⊢
    exact hsub a ha
  have h3 := Finset.card_le_card h2
  have h4 := List.toFinset_card_le L
  omega

theorem measure_decrease {resources : List Resource} (hN : (ids resources).Nodup)
    {c : String} {rest : List String} {deg : String → Int} {ord : List String}
    (inv : KahnInv resources (c :: rest) deg ord) :
    (kahnStep (graphFn resources c) deg rest).2.length +
      degSum (ids resources) (kahnStep (graphFn resources c) deg rest).1 + 1 ≤
      (c :: rest).length + degSum (ids resources) deg := by
  have hrestn : rest.Nodup := ((List.nodup_append.1 inv.nodup).2.1).of_cons
  have hq0 : ∀ y ∈ rest, deg y ≤ 0 :=
    fun y hy => le_of_eq (inv.queueZero y (List.mem_cons_of_mem _ hy))
  obtain ⟨extra, he1, he2, he3, he4⟩ :=
    kahnStep_queue (graphFn resources c) deg rest hq0 hrestn
  have inv2 := inv.step hN
  have hpt : ∀ x ∈ ids resources,
      (deg x).toNat = ((kahnStep (graphFn resources c) deg rest).1 x).toNat +
        (graphFn resources c).count x := by
    intro x hx
    have h1 := inv.degEq x hx
    have h2 := inv2.degEq x hx
    have h3 := kahnStep_deg (graphFn resources c) deg rest x
    omega
  have hsum : degSum (ids resources) deg =
      degSum (ids resources) (kahnStep (graphFn resources c) deg rest).1 +
        (graphFn resources c).length := by
    unfold degSum
    calc ((ids resources).map (fun x => (deg x).toNat)).sum
        = ((ids resources).map (fun x =>
            ((kahnStep (graphFn resources c) deg rest).1 x).toNat +
              (graphFn resources c).count x)).sum := by
          congr 1
          exact List.map_congr_left hpt
      _ = ((ids resources).map (fun x =>
            ((kahnStep (graphFn resources c) deg rest).1 x).toNat)).sum +
          ((ids resources).map (fun x => (graphFn resources c).count x)).sum :=
          sum_map_add _ _ _
      _ = ((ids resources).map (fun x =>
            ((kahnStep (graphFn resources c) deg rest).1 x).toNat)).sum +
          (graphFn resources c).length := by
          rw [sum_map_count hN _ (fun y hy => graphFn_subset hy)]
  have hqlen : (kahnStep (graphFn resources c) deg rest).2.length =
      rest.length + extra.length := by
    rw [he1, List.length_append]
  have hextra_le : extra.length ≤ (graphFn resources c).length :=
    nodup_subset_length_le he3.of_append_right (fun y hy => (he2 y hy).1)
  simp only [List.length_cons]
  omega

theorem kahnInv_empty_queue {resources : List Resource} {deg : String → Int}
    {ord : List String} (inv : KahnInv resources [] deg ord) :
    ∀ x ∈ ids resources, x ∉ ord →
      ∃ d ∈ depsOf resources x, d ∈ ids resources ∧ d ∉ ord := by
  intro x hxL hx
  by_contra hcon
  push_neg at hcon
  have h0 : countDeps resources x ord = 0 := by
    rw [countDeps_eq_zero]
    intro d hd hdL
    exact hcon d hd hdL
  have hdeg : deg x = 0 := by
    rw [inv.degEq x hxL, h0]
    rfl
  rcases inv.zeroQueued x hxL hdeg with h | h
  · exact hx h
  · cases h

theorem kahnLoop_complete {resources : List Resource} (hN : (ids resources).Nodup) :
    ∀ (fuel : Nat) (q : List String) (deg : String → Int) (ord : List String),
      KahnInv resources q deg ord →
      q.length + degSum (ids resources) deg ≤ fuel →
      ∀ x ∈ ids resources, x ∉ kahnLoop (graphFn resources) fuel q deg ord →
        ∃ d ∈ depsOf resources x, d ∈ ids resources ∧
          d ∉ kahnLoop (graphFn resources) fuel q deg ord := by
  intro fuel
  induction fuel with
  | zero =>
    intro q deg ord inv hfuel x hxL hx
    have hq : q = [] := List.length_eq_zero.1 (by omega)
    subst hq
    exact kahnInv_empty_queue inv x hxL hx
  | succ fuel ih =>
    intro q deg ord inv hfuel x hxL hx
    cases q with
    | nil => exact kahnInv_empty_queue inv x hxL hx
    | cons c rest =>
      have hred : kahnLoop (graphFn resources) (fuel + 1) (c :: rest) deg ord =
          kahnLoop (graphFn resources) fuel (kahnStep (graphFn resources c) deg rest).2
            (kahnStep (graphFn resources c) deg rest).1 (ord ++ [c]) := rfl
      rw [hred] at hx ⊢
      refine ih _ _ _ (inv.step hN) ?_ x hxL hx
      have hdec := measure_decrease hN inv
      simp only [List.length_cons] at hfuel hdec
      omega

/-- The execution order and the ghost attempts log of
`execute_deployment_plan` in sequential mode. -/
theorem exec_false_attempts (hashFn : String → Int) (dc : String)
    (plan : DeploymentPlan) :
    (execute_deployment_plan hashFn dc false plan).attempts =
      (execute_sequential_deployment hashFn dc plan.resources plan.execution_order
        initState).attempts := by
  unfold execute_deployment_plan
  split
  · simp_all
  · cases hr : (execute_sequential_deployment hashFn dc plan.resources
      plan.execution_order initState).raised <;> simp [hr]

/-- Acyclicity via a rank function compatible with the edges; used to
discharge acyclicity hypotheses on concrete inputs. -/
theorem acyclic_of_rank {resources : List Resource} (rank : String → Nat)
    (h : ∀ d x, DepEdge resources d x → rank d < rank x) : Acyclic resources := by
  intro x hx
  have hmono : ∀ a b, Relation.TransGen (DepEdge resources) a b → rank a < rank b := by
    intro a b h2
    induction h2 with
    | single h3 => exact h _ _ h3
    | tail _ h4 ih => exact lt_trans ih (h _ _ h4)
  exact lt_irrefl _ (hmono x x hx)

theorem calculate_execution_order_mem_complete (resources : List Resource)
    (hN : (ids resources).Nodup) (hA : Acyclic resources) :
    ∀ x ∈ ids resources, x ∈ calculate_execution_order resources := by
  by_contra hcon
  push_neg at hcon
  obtain ⟨x₀, hx₀L, hx₀⟩ := hcon
  have hcomp : ∀ x ∈ ids resources, x ∉ calculate_execution_order resources →
      ∃ d ∈ depsOf resources x, d ∈ ids resources ∧
        d ∉ calculate_execution_order resources := by
    intro x hx hxmem
    exact kahnLoop_complete hN (kahn_fuel resources) _ _ _ (kahnInv_init resources hN)
      (Nat.le_succ _) x hx hxmem
  classical
  have hch : ∀ s : Remaining resources,
      ∃ s' : Remaining resources, DepEdge resources s'.val s.val := by
    rintro ⟨z, hz1, hz2⟩
    obtain ⟨d, hd, hdL, hdres⟩ := hcomp z hz1 hz2
    obtain ⟨r, hfind, hrid⟩ := findResource_isSome_of_mem_ids hz1
    rw [depsOf_eq_of_find hfind] at hd
    exact ⟨⟨d, hdL, hdres⟩, hdL, r, hfind, hd⟩
  choose f hf using hch
  have hstep : ∀ n, DepEdge resources
      ((f^[n + 1] ⟨x₀, hx₀L, hx₀⟩).val) ((f^[n] ⟨x₀, hx₀L, hx₀⟩).val) := by
    intro n
    rw [Function.iterate_succ_apply']
    exact hf (f^[n] ⟨x₀, hx₀L, hx₀⟩)
  have hchain : ∀ m n, n < m → Relation.TransGen (DepEdge resources)
      ((f^[m] ⟨x₀, hx₀L, hx₀⟩).val) ((f^[n] ⟨x₀, hx₀L, hx₀⟩).val) := by
    intro m
    induction m with
    | zero =>
      intro n hn
      exact absurd hn (Nat.not_lt_zero n)
    | succ m ihm =>
      intro n hn
      rcases Nat.lt_succ_iff_lt_or_eq.1 hn with h | h
      · exact Relation.TransGen.head (hstep m) (ihm n h)
      · rw [h]
        exact Relation.TransGen.single (hstep m)
  have hmapsto : ∀ n ∈ Finset.range ((ids resources).length + 1),
      (f^[n] ⟨x₀, hx₀L, hx₀⟩).val ∈ (ids resources).toFinset := by
    intro n _
    rw [List.mem_toFinset]
    exact (f^[n] ⟨x₀, hx₀L, hx₀⟩).property.1
  have hcard : ((ids resources).toFinset).card <
      (Finset.range ((ids resources).length + 1)).card := by
    rw [Finset.card_range]
    exact lt_of_le_of_lt (List.toFinset_card_le _) (Nat.lt_succ_self _)
  obtain ⟨i, hi, j, hj, hij, heq⟩ :=
    Finset.exists_ne_map_eq_of_card_lt_of_maps_to hcard hmapsto
  rcases hij.lt_or_lt with hlt | hlt
  · have hc := hchain j i hlt
    rw [heq] at hc
    exact hA _ hc
  · have hc := hchain i j hlt
    rw [← heq] at hc
    exact hA _ hc

/-- Acyclicity from a decidable check: every listed dependency occurs
strictly earlier in the id list than its dependent. -/
theorem acyclic_of_index (resources : List Resource)
    (h : ∀ r ∈ resources, ∀ d ∈ r.dependencies, d ∈ ids resources →
      (ids resources).indexOf d < (ids resources).indexOf r.id) :
    Acyclic resources := by
  apply acyclic_of_rank (fun s => (ids resources).indexOf s)
  rintro d x ⟨hdL, r, hfind, hdr⟩
  rcases findResource_mem hfind with ⟨hrmem, hrid⟩
  rw [← hrid]
  exact h r hrmem d hdr hdL

/-! ### Analysis of the deployment executors -/

theorem deploy_ok_of_valid (hashFn : String → Int) (dc : String) {r : Resource}
    (h : r.provider ∈ valid_providers) :
    ∃ res, deploy_resource hashFn dc r = .ok res := by
  unfold deploy_resource
  simp only [valid_providers, List.mem_cons, List.not_mem_nil, or_false] at h
  rcases h with h | h | h | h
  · exact ⟨_, by rw [if_pos h]⟩
  · exact ⟨_, by rw [if_neg (by rw [h]; decide), if_pos h]⟩
  · exact ⟨_, by rw [if_neg (by rw [h]; decide), if_neg (by rw [h]; decide), if_pos h]⟩
  · exact ⟨_, by rw [if_neg (by rw [h]; decide), if_neg (by rw [h]; decide),
      if_neg (by rw [h]; decide), if_pos h]⟩

theorem deploy_err_of_invalid (hashFn : String → Int) (dc : String) {r : Resource}
    (h : r.provider ∉ valid_providers) :
    deploy_resource hashFn dc r =
      .error ("Unsupported provider: " ++ r.provider) := by
  unfold deploy_resource
  simp only [valid_providers, List.mem_cons, List.not_mem_nil, or_false, not_or] at h
  rw [if_neg h.1, if_neg h.2.1, if_neg h.2.2.1, if_neg h.2.2.2]

theorem deploy_ok_valid {hashFn : String → Int} {dc : String} {r : Resource}
    {res : DeployResult} (h : deploy_resource hashFn dc r = .ok res) :
    r.provider ∈ valid_providers := by
  by_contra hc
  rw [deploy_err_of_invalid hashFn dc hc] at h
  cases h

theorem seq_raised_stable (hashFn : String → Int) (dc : String)
    (resources : List Resource) :
    ∀ (order : List String) (st : RunState), st.raised.isSome = true →
      execute_sequential_deployment hashFn dc resources order st = st := by
  intro order
  cases order with
  | nil =>
    intro st _
    rfl
  | cons rid rest =>
    intro st h
    unfold execute_sequential_deployment
    rw [if_pos h]

theorem runLevels_raised_stable (hashFn : String → Int) (dc : String)
    (resources : List Resource) :
    ∀ (levels : List (Nat × List String)) (st : RunState), st.raised.isSome = true →
      runLevels hashFn dc resources levels st = st := by
  intro levels
  cases levels with
  | nil =>
    intro st _
    rfl
  | cons p rest =>
    intro st h
    obtain ⟨lv, g⟩ := p
    unfold runLevels
    rw [if_pos h]

theorem awaitLevel_attempts (hashFn : String → Int) (dc : String)
    (resources : List Resource) :
    ∀ (lvl : List String) (st : RunState),
      (awaitLevel hashFn dc resources lvl st).attempts = st.attempts := by
  intro lvl
  induction lvl with
  | nil =>
    intro st
    rfl
  | cons rid rest ih =>
    intro st
    unfold awaitLevel
    by_cases h : st.raised.isSome
    · rw [if_pos h]
    · rw [if_neg h]
      split
      · rfl
      · split
        · exact ih _
        · rfl

theorem seq_attempts_decomp (hashFn : String → Int) (dc : String)
    (resources : List Resource) :
    ∀ (order : List String) (st : RunState),
      ∃ t, (execute_sequential_deployment hashFn dc resources order st).attempts =
        st.attempts ++ t ∧ t.Sublist order := by
  intro order
  induction order with
  | nil =>
    intro st
    exact ⟨[], by simp [execute_sequential_deployment], List.nil_sublist _⟩
  | cons rid rest ih =>
    intro st
    unfold execute_sequential_deployment
    by_cases h : st.raised.isSome
    · rw [if_pos h]
      exact ⟨[], by simp, List.nil_sublist _⟩
    · rw [if_neg h]
      obtain ⟨t', ht', hsub⟩ := ih (deployInto hashFn dc resources st rid)
      rcases deployInto_attempts hashFn dc resources st rid with heq | heq
      · refine ⟨t', ?_, hsub.cons _⟩
        rw [ht', heq]
      · refine ⟨rid :: t', ?_, hsub.cons₂ _⟩
        rw [ht', heq]
        simp

theorem runLevels_attempts_decomp (hashFn : String → Int) (dc : String)
    (resources : List Resource) :
    ∀ (levels : List (Nat × List String)) (st : RunState),
      ∃ t, (runLevels hashFn dc resources levels st).attempts = st.attempts ++ t ∧
        t.Sublist (levels.flatMap (fun p => p.2)) := by
  intro levels
  induction levels with
  | nil =>
    intro st
    exact ⟨[], by simp [runLevels], List.nil_sublist _⟩
  | cons p rest ih =>
    intro st
    obtain ⟨lv, g⟩ := p
    unfold runLevels
    by_cases h : st.raised.isSome
    · rw [if_pos h]
      exact ⟨[], by simp, List.nil_sublist _⟩
    · rw [if_neg h]
      obtain ⟨t', ht', hsub⟩ := ih (runLevel hashFn dc resources g st)
      have hrl : (runLevel hashFn dc resources g st).attempts = st.attempts ++ g := by
        unfold runLevel
        rw [awaitLevel_attempts]
      refine ⟨g ++ t', ?_, ?_⟩
      · rw [ht', hrl, List.append_assoc]
      · rw [List.flatMap_cons]
        exact hsub.append_left g

/-! ### The levels dict partitions the processed resources -/

theorem levelsAdd_keys_nodup {levels : List (Nat × List String)} {l : Nat} {x : String}
    (h : (levels.map (fun p => p.1)).Nodup) :
    ((levelsAdd levels l x).map (fun p => p.1)).Nodup := by
  unfold levelsAdd
  by_cases hc : (levels.any (fun p => p.1 == l)) = true
  · rw [if_pos hc]
    have he : (levels.map (fun p => if p.1 == l then (p.1, p.2 ++ [x]) else p)).map
        (fun p => p.1) = levels.map (fun p => p.1) := by
      rw [List.map_map]
      apply List.map_congr_left
      intro p _
      by_cases hp : p.1 = l <;> simp [hp]
    rw [he]
    exact h
  · rw [if_neg hc]
    rw [List.map_append, List.nodup_append]
    refine ⟨h, List.nodup_singleton _, ?_⟩
    intro a ha hb
    have hal : a = l := by simpa using hb
    subst hal
    rcases List.mem_map.1 ha with ⟨p, hp, hpa⟩
    exact hc (List.any_eq_true.2 ⟨p, hp, by simp [hpa]⟩)

theorem levelsAdd_join_perm {levels : List (Nat × List String)} (l : Nat) (x : String)
    (hk : (levels.map (fun p => p.1)).Nodup) :
    ((levelsAdd levels l x).flatMap (fun p => p.2)).Perm
      ((levels.flatMap (fun p => p.2)) ++ [x]) := by
  induction levels with
  | nil => simp [levelsAdd]
  | cons p rest ih =>
    rw [List.map_cons, List.nodup_cons] at hk
    cases hc : (p.1 == l) with
    | true =>
      have hany : ((p :: rest).any (fun q => q.1 == l)) = true := by
        simp [List.any_cons, hc]
      have hpl : p.1 = l := by simpa using hc
      have hrest : rest.map (fun q => if q.1 == l then (q.1, q.2 ++ [x]) else q) = rest := by
        have hcg : ∀ q ∈ rest, (if q.1 == l then (q.1, q.2 ++ [x]) else q) = q := by
          intro q hq
          have hql : (q.1 == l) = false := by
            rw [beq_eq_false_iff_ne]
            intro hql
            apply hk.1
            rw [← hpl] at hql
            exact List.mem_map.2 ⟨q, hq, hql⟩
          simp [hql]
        calc rest.map (fun q => if q.1 == l then (q.1, q.2 ++ [x]) else q)
            = rest.map id := List.map_congr_left hcg
          _ = rest := List.map_id _
      unfold levelsAdd
      rw [if_pos hany, List.map_cons, hrest]
      simp only [List.flatMap_cons, hc, if_true]
      refine List.Perm.trans ?_ (List.Perm.refl _)
      have h2 : (p.2 ++ rest.flatMap (fun p => p.2)) ++ [x] =
          p.2 ++ (rest.flatMap (fun p => p.2) ++ [x]) := List.append_assoc _ _ _
      rw [h2]
      have h3 : (p.2 ++ [x]) ++ rest.flatMap (fun p => p.2) =
          p.2 ++ ([x] ++ rest.flatMap (fun p => p.2)) := List.append_assoc _ _ _
      rw [h3]
      exact List.Perm.append_left _ (@List.perm_append_comm _ [x] _)
    | false =>
      by_cases hany : (rest.any (fun q => q.1 == l)) = true
      · have hany2 : ((p :: rest).any (fun q => q.1 == l)) = true := by
          simp [List.any_cons, hany]
        have hLA : rest.map (fun q => if q.1 == l then (q.1, q.2 ++ [x]) else q) =
            levelsAdd rest l x := by
          unfold levelsAdd
          rw [if_pos hany]
        unfold levelsAdd
        rw [if_pos hany2, List.map_cons, hLA]
        simp only [hc, Bool.false_eq_true, if_false, List.flatMap_cons]
        have hperm := ih hk.2
        refine List.Perm.trans (List.Perm.append_left p.2 hperm) ?_
        rw [List.append_assoc]
      · have hanyf : (rest.any (fun q => q.1 == l)) = false := by
          cases hb : rest.any (fun q => q.1 == l) with
          | false => rfl
          | true => exact absurd hb hany
        have hany2 : ((p :: rest).any (fun q => q.1 == l)) = false := by
          simp [List.any_cons, hc, hanyf]
        unfold levelsAdd
        rw [if_neg (by simp [hany2])]
        rw [List.flatMap_append]
        simp only [List.flatMap_cons, List.flatMap_nil, List.append_nil]
        exact List.Perm.refl _

theorem groupRun_fold_perm (resources : List Resource) :
    ∀ (rs : List Resource) (acc : Memo × List (Nat × List String)),
      ((acc.2.map (fun p => p.1)).Nodup) →
      (((rs.foldl (groupStep resources) acc).2.flatMap (fun p => p.2)).Perm
        ((acc.2.flatMap (fun p => p.2)) ++ rs.map (fun r => r.id))) := by
  intro rs
  induction rs with
  | nil =>
    intro acc hk
    simp
  | cons r rs ih =>
    intro acc hk
    rw [List.foldl_cons]
    have hkn := @levelsAdd_keys_nodup acc.2
      (calculate_level resources (group_fuel resources) r.id [] acc.1).1 r.id hk
    have hstep := levelsAdd_join_perm
      ((calculate_level resources (group_fuel resources) r.id [] acc.1).1) r.id hk
    have hrec := ih ((calculate_level resources (group_fuel resources) r.id [] acc.1).2,
      levelsAdd acc.2 (calculate_level resources (group_fuel resources) r.id [] acc.1).1 r.id)
      hkn
    refine List.Perm.trans hrec ?_
    refine List.Perm.trans (List.Perm.append_right _ hstep) ?_
    rw [List.append_assoc]
    simp

/-- The buckets of `_group_by_dependency_level` jointly contain each
resource id exactly once (in particular they partition the ids when these
are pairwise distinct). -/
theorem group_levels_join_perm (resources : List Resource) :
    (((group_by_dependency_level resources).flatMap (fun p => p.2))).Perm
      (ids resources) := by
  have h := groupRun_fold_perm resources resources ([], []) (by simp)
  simpa [group_by_dependency_level, groupRun, ids] using h

/-! ### Clean runs and the failure dichotomy -/

theorem deployInto_eq_none {hashFn : String → Int} {dc : String}
    {resources : List Resource} {st : RunState} {rid : String}
    (hfind : findResource resources rid = none) :
    deployInto hashFn dc resources st rid =
      { st with raised := some "StopIteration" } := by
  unfold deployInto
  split
  · rfl
  · rename_i r2 heq
    rw [hfind] at heq
    cases heq

theorem deployInto_eq_ok {hashFn : String → Int} {dc : String}
    {resources : List Resource} {st : RunState} {rid : String} {r : Resource}
    {res : DeployResult} (hfind : findResource resources rid = some r)
    (hok : deploy_resource hashFn dc r = .ok res) :
    deployInto hashFn dc resources st rid =
      { st with deployed := st.deployed ++ [(rid, res)],
                attempts := st.attempts ++ [rid] } := by
  unfold deployInto
  split
  · rename_i heq
    rw [hfind] at heq
    cases heq
  · rename_i r2 heq
    rw [hfind] at heq
    injection heq with heq2
    subst heq2
    split
    · rename_i res2 hd
      rw [hok] at hd
      injection hd with hd2
      subst hd2
      rfl
    · rename_i e hd
      rw [hok] at hd
      cases hd

theorem deployInto_eq_err {hashFn : String → Int} {dc : String}
    {resources : List Resource} {st : RunState} {rid : String} {r : Resource}
    {e : String} (hfind : findResource resources rid = some r)
    (herr : deploy_resource hashFn dc r = .error e) :
    deployInto hashFn dc resources st rid =
      { st with
          errors := st.errors ++ ["Failed to deploy resource " ++ rid ++ ": " ++ e]
          attempts := st.attempts ++ [rid]
          raised := some e } := by
  unfold deployInto
  split
  · rename_i heq
    rw [hfind] at heq
    cases heq
  · rename_i r2 heq
    rw [hfind] at heq
    injection heq with heq2
    subst heq2
    split
    · rename_i res2 hd
      rw [herr] at hd
      cases hd
    · rename_i e2 hd
      rw [herr] at hd
      injection hd with hd2
      subst hd2
      rfl

theorem seq_clean (hashFn : String → Int) (dc : String) (resources : List Resource) :
    ∀ (order : List String) (st : RunState),
      (∀ rid ∈ order, ∃ r, findResource resources rid = some r ∧
        r.provider ∈ valid_providers) →
      st.raised = none →
      (execute_sequential_deployment hashFn dc resources order st).raised = none ∧
      (execute_sequential_deployment hashFn dc resources order st).errors = st.errors := by
  intro order
  induction order with
  | nil =>
    intro st _ hr
    exact ⟨hr, rfl⟩
  | cons rid rest ih =>
    intro st h hr
    unfold execute_sequential_deployment
    rw [if_neg (by simp [hr])]
    obtain ⟨r, hfind, hval⟩ := h rid (List.mem_cons_self _ _)
    obtain ⟨res, hok⟩ := deploy_ok_of_valid hashFn dc hval
    rw [deployInto_eq_ok hfind hok]
    exact ih _ (fun rid2 h2 => h rid2 (List.mem_cons_of_mem _ h2)) hr

theorem awaitLevel_clean (hashFn : String → Int) (dc : String)
    (resources : List Resource) :
    ∀ (lvl : List String) (st : RunState),
      (∀ rid ∈ lvl, ∃ r, findResource resources rid = some r ∧
        r.provider ∈ valid_providers) →
      st.raised = none →
      (awaitLevel hashFn dc resources lvl st).raised = none ∧
      (awaitLevel hashFn dc resources lvl st).errors = st.errors := by
  intro lvl
  induction lvl with
  | nil =>
    intro st _ hr
    exact ⟨hr, rfl⟩
  | cons rid rest ih =>
    intro st h hr
    unfold awaitLevel
    rw [if_neg (by simp [hr])]
    obtain ⟨r, hfind, hval⟩ := h rid (List.mem_cons_self _ _)
    obtain ⟨res, hok⟩ := deploy_ok_of_valid hashFn dc hval
    split
    · rename_i heq
      rw [hfind] at heq
      cases heq
    · rename_i r2 heq
      rw [hfind] at heq
      injection heq with heq2
      subst heq2
      split
      · rename_i res2 hd
        exact ih _ (fun rid2 h2 => h rid2 (List.mem_cons_of_mem _ h2)) hr
      · rename_i e hd
        rw [hok] at hd
        cases hd

theorem runLevels_clean (hashFn : String → Int) (dc : String)
    (resources : List Resource) :
    ∀ (levels : List (Nat × List String)) (st : RunState),
      (∀ rid ∈ levels.flatMap (fun p => p.2), ∃ r,
        findResource resources rid = some r ∧ r.provider ∈ valid_providers) →
      st.raised = none →
      (runLevels hashFn dc resources levels st).raised = none ∧
      (runLevels hashFn dc resources levels st).errors = st.errors := by
  intro levels
  induction levels with
  | nil =>
    intro st _ hr
    exact ⟨hr, rfl⟩
  | cons p rest ih =>
    intro st h hr
    obtain ⟨lv, g⟩ := p
    unfold runLevels
    rw [if_neg (by simp [hr])]
    have hg : ∀ rid ∈ g, ∃ r, findResource resources rid = some r ∧
        r.provider ∈ valid_providers := by
      intro rid h2
      refine h rid ?_
      rw [List.flatMap_cons]
      exact List.mem_append_left _ h2
    obtain ⟨h1, h2⟩ := awaitLevel_clean hashFn dc resources g
      { st with attempts := st.attempts ++ g } hg hr
    have hrest := ih (runLevel hashFn dc resources g st)
      (fun rid h3 => h rid (by rw [List.flatMap_cons]; exact List.mem_append_right _ h3)) h1
    exact ⟨hrest.1, hrest.2.trans h2⟩

theorem seq_dichotomy (hashFn : String → Int) (dc : String) (resources : List Resource) :
    ∀ (order : List String) (st : RunState),
      st.raised = none → (∀ x ∈ st.attempts, AttOK resources x) →
      ((execute_sequential_deployment hashFn dc resources order st).raised = none ∧
        ∀ x ∈ (execute_sequential_deployment hashFn dc resources order st).attempts,
          AttOK resources x) ∨
      (execute_sequential_deployment hashFn dc resources order st).raised.isSome = true := by
  intro order
  induction order with
  | nil =>
    intro st hr ha
    exact Or.inl ⟨hr, ha⟩
  | cons rid rest ih =>
    intro st hr ha
    unfold execute_sequential_deployment
    rw [if_neg (by simp [hr])]
    cases hf : findResource resources rid with
    | none =>
      rw [deployInto_eq_none hf]
      have hst : ({ st with raised := some "StopIteration" } : RunState).raised.isSome =
          true := rfl
      rw [seq_raised_stable hashFn dc resources rest _ hst]
      exact Or.inr hst
    | some r =>
      cases hd : deploy_resource hashFn dc r with
      | ok res =>
        rw [deployInto_eq_ok hf hd]
        refine ih _ hr ?_
        intro x hx
        rcases List.mem_append.1 hx with hx | hx
        · exact ha x hx
        · have hx2 : x = rid := by simpa using hx
          subst hx2
          exact ⟨r, hf, deploy_ok_valid hd⟩
      | error e =>
        rw [deployInto_eq_err hf hd]
        have hst : ({ st with
            errors := st.errors ++ ["Failed to deploy resource " ++ rid ++ ": " ++ e]
            attempts := st.attempts ++ [rid]
            raised := some e } : RunState).raised.isSome = true := rfl
        rw [seq_raised_stable hashFn dc resources rest _ hst]
        exact Or.inr hst

theorem awaitLevel_dichotomy (hashFn : String → Int) (dc : String)
    (resources : List Resource) :
    ∀ (lvl : List String) (st : RunState), st.raised = none →
      ((awaitLevel hashFn dc resources lvl st).raised = none ∧
        ∀ x ∈ lvl, AttOK resources x) ∨
      (awaitLevel hashFn dc resources lvl st).raised.isSome = true := by
  intro lvl
  induction lvl with
  | nil =>
    intro st hr
    refine Or.inl ⟨hr, ?_⟩
    intro x hx
    cases hx
  | cons rid rest ih =>
    intro st hr
    unfold awaitLevel
    rw [if_neg (by simp [hr])]
    split
    · exact Or.inr rfl
    · rename_i r heq
      split
      · rename_i res hd
        rcases ih { st with deployed := st.deployed ++ [(rid, res)] } hr with
          ⟨h1, h2⟩ | h
        · refine Or.inl ⟨h1, ?_⟩
          intro x hx
          rcases List.mem_cons.1 hx with hx2 | hx
          · subst hx2
            exact ⟨r, heq, deploy_ok_valid hd⟩
          · exact h2 x hx
        · exact Or.inr h
      · exact Or.inr rfl

theorem runLevels_dichotomy (hashFn : String → Int) (dc : String)
    (resources : List Resource) :
    ∀ (levels : List (Nat × List String)) (st : RunState),
      st.raised = none → (∀ x ∈ st.attempts, AttOK resources x) →
      ((runLevels hashFn dc resources levels st).raised = none ∧
        ∀ x ∈ (runLevels hashFn dc resources levels st).attempts,
          AttOK resources x) ∨
      (runLevels hashFn dc resources levels st).raised.isSome = true := by
  intro levels
  induction levels with
  | nil =>
    intro st hr ha
    exact Or.inl ⟨hr, ha⟩
  | cons p rest ih =>
    intro st hr ha
    obtain ⟨lv, g⟩ := p
    unfold runLevels
    rw [if_neg (by simp [hr])]
    rcases awaitLevel_dichotomy hashFn dc resources g
      { st with attempts := st.attempts ++ g } hr with ⟨h1, h2⟩ | h
    · refine ih (runLevel hashFn dc resources g st) h1 ?_
      intro x hx
      rw [show (runLevel hashFn dc resources g st).attempts = st.attempts ++ g from
        awaitLevel_attempts hashFn dc resources g _] at hx
      rcases List.mem_append.1 hx with hx | hx
      · exact ha x hx
      · exact h2 x hx
    · have hrl : runLevel hashFn dc resources g st =
          awaitLevel hashFn dc resources g { st with attempts := st.attempts ++ g } := rfl
      rw [hrl, runLevels_raised_stable hashFn dc resources rest _ h]
      exact Or.inr h

/-! ### Reading off the final outcome record -/

theorem exec_true_attempts (hashFn : String → Int) (dc : String)
    (plan : DeploymentPlan) :
    (execute_deployment_plan hashFn dc true plan).attempts =
      (runLevels hashFn dc plan.resources (group_by_dependency_level plan.resources)
        initState).attempts := by
  unfold execute_deployment_plan
  split
  · cases hr : (runLevels hashFn dc plan.resources
      (group_by_dependency_level plan.resources) initState).raised <;> simp [hr]
  · simp_all

theorem exec_status_of_raised_none {hashFn : String → Int} {dc : String}
    {par : Bool} {plan : DeploymentPlan}
    (h : (if par then
        runLevels hashFn dc plan.resources (group_by_dependency_level plan.resources)
          initState
      else
        execute_sequential_deployment hashFn dc plan.resources plan.execution_order
          initState).raised = none) :
    (execute_deployment_plan hashFn dc par plan).status = "completed" ∧
    (execute_deployment_plan hashFn dc par plan).errors =
      (if par then
        runLevels hashFn dc plan.resources (group_by_dependency_level plan.resources)
          initState
      else
        execute_sequential_deployment hashFn dc plan.resources plan.execution_order
          initState).errors := by
  unfold execute_deployment_plan
  cases par <;> simp_all

theorem exec_status_of_raised_some {hashFn : String → Int} {dc : String}
    {par : Bool} {plan : DeploymentPlan} {e : String}
    (h : (if par then
        runLevels hashFn dc plan.resources (group_by_dependency_level plan.resources)
          initState
      else
        execute_sequential_deployment hashFn dc plan.resources plan.execution_order
          initState).raised = some e) :
    (execute_deployment_plan hashFn dc par plan).status = "failed" ∧
    (execute_deployment_plan hashFn dc par plan).errors =
      (if par then
        runLevels hashFn dc plan.resources (group_by_dependency_level plan.resources)
          initState
      else
        execute_sequential_deployment hashFn dc plan.resources plan.execution_order
          initState).errors ++ [e] := by
  unfold execute_deployment_plan
  cases par <;> simp_all

/-! ### Lookup and insertion facts for the level memo -/

theorem mlookup_append_some {m : Memo} {x : String} {v : Nat} (D : Memo)
    (h : mlookup m x = some v) : mlookup (m ++ D) x = some v := by
  unfold mlookup at h ⊢
  rw [List.find?_append]
  rcases hf : m.find? (fun p => p.1 == x) with _ | e
  · rw [hf] at h; simp at h
  · rw [hf] at h
    rw [hf]
    simpa [Option.or] using h

theorem mlookup_append_none {m : Memo} {x : String} (D : Memo)
    (h : mlookup m x = none) : mlookup (m ++ D) x = mlookup D x := by
  unfold mlookup at h ⊢
  rw [List.find?_append]
  rcases hf : m.find? (fun p => p.1 == x) with _ | e
  · rw [hf]
    simp [Option.or]
  · rw [hf] at h; simp at h

theorem mlookup_isSome_append {m : Memo} {x : String} (D : Memo)
    (h : (mlookup m x).isSome) : (mlookup (m ++ D) x).isSome := by
  rcases Option.isSome_iff_exists.1 h with ⟨v, hv⟩
  rw [mlookup_append_some D hv]
  rfl

theorem mlookup_getD_append {m : Memo} {x : String} (D : Memo)
    (h : (mlookup m x).isSome) :
    (mlookup (m ++ D) x).getD 0 = (mlookup m x).getD 0 := by
  rcases Option.isSome_iff_exists.1 h with ⟨v, hv⟩
  rw [mlookup_append_some D hv, hv]

theorem mlookup_eq_none_of_keys {D : Memo} {x : String}
    (h : ∀ k ∈ D.map (fun p : String × Nat => p.1), k ≠ x) : mlookup D x = none := by
  have hf : D.find? (fun p => p.1 == x) = none := by
    rw [List.find?_eq_none]
    intro p hp hpx
    exact h p.1 (List.mem_map.2 ⟨p, hp, rfl⟩) (by simpa using hpx)
  unfold mlookup
  rw [hf]
  rfl

theorem minsert_eq_append {m : Memo} {x : String} (v : Nat)
    (h : mlookup m x = none) : minsert m x v = m ++ [(x, v)] := by
  unfold minsert
  rw [if_neg]
  intro hany
  rcases List.any_eq_true.1 hany with ⟨p, hp, hpx⟩
  have hf : (m.find? (fun p => p.1 == x)).isSome := List.find?_isSome.2 ⟨p, hp, hpx⟩
  rcases Option.isSome_iff_exists.1 hf with ⟨e, he⟩
  unfold mlookup at h
  rw [he] at h
  simp at h

theorem mlookup_single_self (x : String) (v : Nat) : mlookup [(x, v)] x = some v := by
  simp [mlookup]

theorem mlookup_single_ne {k x : String} (v : Nat) (h : k ≠ x) :
    mlookup [(k, v)] x = none := by
  have : ((k, v).1 == x) = false := by simpa using h
  simp [mlookup, List.find?, this]

theorem depsMax_nil (m : Memo) : depsMax m [] = 0 := rfl

theorem depsMax_cons (m : Memo) (d : String) (ds : List String) :
    depsMax m (d :: ds) = max ((mlookup m d).getD 0) (depsMax m ds) := rfl

theorem depsMax_append_stable {m : Memo} {ds : List String} (D : Memo)
    (h : ∀ d ∈ ds, (mlookup m d).isSome) : depsMax (m ++ D) ds = depsMax m ds := by
  induction ds with
  | nil => rfl
  | cons d ds ih =>
    rw [depsMax_cons, depsMax_cons, mlookup_getD_append D (h d (List.mem_cons_self d ds)),
      ih (fun d' hd' => h d' (List.mem_cons_of_mem _ hd'))]

theorem depsMax_ge {m : Memo} {ds : List String} {d : String} (h : d ∈ ds) :
    (mlookup m d).getD 0 ≤ depsMax m ds := by
  induction ds with
  | nil => cases h
  | cons e ds ih =>
    rw [depsMax_cons]
    rcases List.mem_cons.1 h with rfl | h'
    · exact Nat.le_max_left _ _
    · exact le_trans (ih h') (Nat.le_max_right _ _)

/-! ### Stability and preservation of the memo invariant -/

theorem levEq_append {resources : List Resource} {m : Memo} {x : String} {l : Nat}
    (D : Memo) (h : LevEq resources m x l) : LevEq resources (m ++ D) x l := by
  unfold LevEq at h ⊢
  rcases hf : findResource resources x with _ | r
  · rw [hf] at h
    exact h
  · rw [hf] at h
    have h' : if r.dependencies.isEmpty = true then l = 0
        else (∀ d ∈ r.dependencies, (mlookup m d).isSome = true) ∧
          l = depsMax m r.dependencies + 1 := h
    show if r.dependencies.isEmpty = true then l = 0
        else (∀ d ∈ r.dependencies, (mlookup (m ++ D) d).isSome = true) ∧
          l = depsMax (m ++ D) r.dependencies + 1
    by_cases hd : r.dependencies.isEmpty = true
    · rw [if_pos hd] at h' ⊢
      exact h'
    · rw [if_neg hd] at h' ⊢
      exact ⟨fun d hd' => mlookup_isSome_append D (h'.1 d hd'),
        by rw [depsMax_append_stable D h'.1]; exact h'.2⟩

theorem goodM_nil (resources : List Resource) : GoodM resources [] := by
  intro x l h
  simp [mlookup] at h

theorem goodM_append_entry {resources : List Resource} {m : Memo} {x : String} {l : Nat}
    (hm : GoodM resources m)
    (he : LevEq resources (m ++ [(x, l)]) x l) : GoodM resources (m ++ [(x, l)]) := by
  intro y ly hy
  rcases hmy : mlookup m y with _ | v
  · rw [mlookup_append_none _ hmy] at hy
    by_cases hxy : x = y
    · subst hxy
      rw [mlookup_single_self] at hy
      injection hy with hl
      subst hl
      exact he
    · rw [mlookup_single_ne _ hxy] at hy
      cases hy
  · have hs := mlookup_append_some [(x, l)] hmy
    rw [hs] at hy
    injection hy with h1
    subst h1
    exact levEq_append _ (hm y v hmy)

/-! ### Visit paths, acyclicity and the fuel bound -/

theorem chain_mem_transGen {R : String → String → Prop} :
    ∀ {l : List String} {a b : String}, List.Chain R a l → b ∈ l →
      Relation.TransGen R a b := by
  intro l
  induction l with
  | nil => intro a b _ hb; cases hb
  | cons c l ih =>
    intro a b hch hb
    cases hch with
    | cons hR hch' =>
      rcases List.mem_cons.1 hb with rfl | hb'
      · exact Relation.TransGen.single hR
      · exact Relation.TransGen.head hR (ih hch' hb')

theorem freshCount_cons_lt {resources : List Resource} {rid : String}
    {visited : List String} (hrid : rid ∈ ids resources) (hnv : rid ∉ visited) :
    freshCount resources (rid :: visited) < freshCount resources visited := by
  unfold freshCount
  have hsplit := length_filter_split (fun x => decide (x ∉ visited))
    (fun x => decide (x ∉ rid :: visited)) rid (by simpa using hnv)
    (by simp) (fun d hd => by rw [decide_eq_decide]; simp [List.mem_cons, hd])
    (ids resources)
  have hc : 0 < (ids resources).count rid := List.count_pos_iff.2 hrid
  omega

theorem freshCount_nil (resources : List Resource) :
    freshCount resources [] = resources.length := by
  unfold freshCount
  rw [List.filter_eq_self.2 (by intro a _; simp)]
  simp [ids]

/-! ### Branch equations of the level recursion -/

theorem foldl_max_eq_deps (resources : List Resource) (fuel : Nat)
    (visited : List String) :
    ∀ (ds : List String) (a : Nat) (memo : Memo),
      ds.foldl (fun acc d =>
        let q := calculate_level resources fuel d visited acc.2
        (max acc.1 q.1, q.2)) (a, memo) =
      (max a (calc_level_deps resources fuel ds visited memo).1,
       (calc_level_deps resources fuel ds visited memo).2) := by
  intro ds
  induction ds with
  | nil => intro a memo; simp [calc_level_deps]
  | cons d ds' ih =>
    intro a memo
    rw [List.foldl_cons, ih]
    simp only [calc_level_deps]
    rw [Nat.max_assoc]

theorem calculate_level_cutoff (resources : List Resource) (fuel : Nat) (rid : String)
    (visited : List String) (memo : Memo) (h : rid ∈ visited) :
    calculate_level resources fuel rid visited memo = (0, memo) := by
  cases fuel with
  | zero => rfl
  | succ fuel' => simp [calculate_level, h]

theorem calculate_level_memoized (resources : List Resource) (fuel' : Nat) {rid : String}
    {visited : List String} {memo : Memo} {l : Nat} (hnv : rid ∉ visited)
    (hml : mlookup memo rid = some l) :
    calculate_level resources (fuel' + 1) rid visited memo = (l, memo) := by
  simp [calculate_level, hnv, hml]

theorem calculate_level_absent (resources : List Resource) (fuel' : Nat) {rid : String}
    {visited : List String} {memo : Memo} (hnv : rid ∉ visited)
    (hml : mlookup memo rid = none) (hfr : findResource resources rid = none) :
    calculate_level resources (fuel' + 1) rid visited memo = (0, minsert memo rid 0) := by
  simp [calculate_level, hnv, hml, hfr]

theorem calculate_level_noDeps (resources : List Resource) (fuel' : Nat) {rid : String}
    {visited : List String} {memo : Memo} {r : Resource} (hnv : rid ∉ visited)
    (hml : mlookup memo rid = none) (hfr : findResource resources rid = some r)
    (hdeps : r.dependencies.isEmpty = true) :
    calculate_level resources (fuel' + 1) rid visited memo = (0, minsert memo rid 0) := by
  simp [calculate_level, hnv, hml, hfr, hdeps]

theorem calculate_level_main (resources : List Resource) (fuel' : Nat) {rid : String}
    {visited : List String} {memo : Memo} {r : Resource} (hnv : rid ∉ visited)
    (hml : mlookup memo rid = none) (hfr : findResource resources rid = some r)
    (hdeps : r.dependencies.isEmpty = false) :
    calculate_level resources (fuel' + 1) rid visited memo =
      ((calc_level_deps resources fuel' r.dependencies (rid :: visited) memo).1 + 1,
       minsert (calc_level_deps resources fuel' r.dependencies (rid :: visited) memo).2
         rid ((calc_level_deps resources fuel' r.dependencies (rid :: visited) memo).1 + 1)) := by
  simp only [calculate_level, if_neg hnv, hml, hfr, hdeps, Bool.false_eq_true, if_false]
  rw [foldl_max_eq_deps]
  simp [Nat.zero_max]

theorem levEq_none_intro {resources : List Resource} {m : Memo} {x : String}
    (hfr : findResource resources x = none) : LevEq resources m x 0 := by
  unfold LevEq
  rw [hfr]

theorem levEq_empty_intro {resources : List Resource} {m : Memo} {x : String}
    {r : Resource} (hfr : findResource resources x = some r)
    (hde : r.dependencies.isEmpty = true) : LevEq resources m x 0 := by
  unfold LevEq
  rw [hfr]
  show if r.dependencies.isEmpty = true then (0 : Nat) = 0
      else (∀ d ∈ r.dependencies, (mlookup m d).isSome = true) ∧
        (0 : Nat) = depsMax m r.dependencies + 1
  rw [if_pos hde]

theorem levEq_deps_intro {resources : List Resource} {m : Memo} {x : String}
    {r : Resource} {l : Nat} (hfr : findResource resources x = some r)
    (hde : r.dependencies.isEmpty = false)
    (h1 : ∀ d ∈ r.dependencies, (mlookup m d).isSome)
    (h2 : l = depsMax m r.dependencies + 1) : LevEq resources m x l := by
  unfold LevEq
  rw [hfr]
  show if r.dependencies.isEmpty = true then l = 0
      else (∀ d ∈ r.dependencies, (mlookup m d).isSome = true) ∧
        l = depsMax m r.dependencies + 1
  rw [if_neg (by simp [hde])]
  exact ⟨h1, h2⟩

theorem levEq_none_elim {resources : List Resource} {m : Memo} {x : String} {l : Nat}
    (h : LevEq resources m x l) (hfr : findResource resources x = none) : l = 0 := by
  unfold LevEq at h
  rw [hfr] at h
  exact h

theorem levEq_empty_elim {resources : List Resource} {m : Memo} {x : String} {l : Nat}
    {r : Resource} (h : LevEq resources m x l) (hfr : findResource resources x = some r)
    (hde : r.dependencies.isEmpty = true) : l = 0 := by
  unfold LevEq at h
  rw [hfr] at h
  have h' : if r.dependencies.isEmpty = true then l = 0
      else (∀ d ∈ r.dependencies, (mlookup m d).isSome = true) ∧
        l = depsMax m r.dependencies + 1 := h
  rw [if_pos hde] at h'
  exact h'

theorem levEq_deps_elim {resources : List Resource} {m : Memo} {x : String} {l : Nat}
    {r : Resource} (h : LevEq resources m x l) (hfr : findResource resources x = some r)
    (hde : r.dependencies.isEmpty = false) :
    (∀ d ∈ r.dependencies, (mlookup m d).isSome) ∧ l = depsMax m r.dependencies + 1 := by
  unfold LevEq at h
  rw [hfr] at h
  have h' : if r.dependencies.isEmpty = true then l = 0
      else (∀ d ∈ r.dependencies, (mlookup m d).isSome = true) ∧
        l = depsMax m r.dependencies + 1 := h
  rw [if_neg (by simp [hde])] at h'
  exact h'

/-! ### The level recursion maintains the memo invariant -/

theorem levelCalls_ok (resources : List Resource) (hAcy : Acyclic resources) :
    ∀ fuel, LevelCallOK resources fuel ∧ DepsCallOK resources fuel := by
  intro fuel
  induction fuel with
  | zero =>
    constructor
    · intro rid visited memo _ _ hfuel _
      exact absurd hfuel (Nat.not_lt_zero _)
    · intro ds visited memo _ _ hfuel _
      exact absurd hfuel (Nat.not_lt_zero _)
  | succ fuel' ih =>
    have hP : LevelCallOK resources (fuel' + 1) := by
      intro rid visited memo hvis hchain hfuel hm
      have hnv : rid ∉ visited := by
        intro hmem
        exact hAcy rid (chain_mem_transGen (hchain (hvis rid hmem)) hmem)
      rcases hml : mlookup memo rid with _ | l
      · rcases hfr : findResource resources rid with _ | r
        · rw [calculate_level_absent resources fuel' hnv hml hfr,
            minsert_eq_append 0 hml]
          refine ⟨⟨⟨[(rid, 0)], rfl, ?_⟩,
            goodM_append_entry hm (levEq_none_intro hfr)⟩, ?_⟩
          · intro k hk
            simp at hk
            subst hk
            exact ⟨hml, hnv⟩
          · rw [mlookup_append_none _ hml, mlookup_single_self]
        · by_cases hde : r.dependencies.isEmpty = true
          · rw [calculate_level_noDeps resources fuel' hnv hml hfr hde,
              minsert_eq_append 0 hml]
            refine ⟨⟨⟨[(rid, 0)], rfl, ?_⟩,
              goodM_append_entry hm (levEq_empty_intro hfr hde)⟩, ?_⟩
            · intro k hk
              simp at hk
              subst hk
              exact ⟨hml, hnv⟩
            · rw [mlookup_append_none _ hml, mlookup_single_self]
          · have hde' : r.dependencies.isEmpty = false := by
              cases hb : r.dependencies.isEmpty with
              | false => rfl
              | true => exact absurd hb hde
            have hrid_ids : rid ∈ ids resources := by
              rcases findResource_mem hfr with ⟨hr, hrid⟩
              exact mem_ids_iff.2 ⟨r, hr, hrid⟩
            have hQ := ih.2 r.dependencies (rid :: visited) memo
              (by
                intro v hv
                rcases List.mem_cons.1 hv with rfl | hv'
                · exact hrid_ids
                · exact hvis v hv')
              (by
                intro d hd hdids
                exact List.Chain.cons ⟨hdids, r, hfr, hd⟩ (hchain hrid_ids))
              (lt_of_lt_of_le (freshCount_cons_lt hrid_ids hnv) (Nat.lt_succ_iff.1 hfuel))
              hm
            obtain ⟨⟨⟨D0, hD0eq, hD0k⟩, hgood⟩, hdsome, hdmax⟩ := hQ
            have hlook_rid :
                mlookup (calc_level_deps resources fuel' r.dependencies
                  (rid :: visited) memo).2 rid = none := by
              rw [hD0eq, mlookup_append_none _ hml]
              exact mlookup_eq_none_of_keys (fun k hk => fun he =>
                (hD0k k hk).2 (by rw [he]; exact List.mem_cons_self rid visited))
            rw [calculate_level_main resources fuel' hnv hml hfr hde',
              minsert_eq_append _ hlook_rid]
            refine ⟨⟨⟨D0 ++ [(rid,
                (calc_level_deps resources fuel' r.dependencies
                  (rid :: visited) memo).1 + 1)],
                ?_, ?_⟩, ?_⟩, ?_⟩
            · rw [hD0eq, List.append_assoc]
            · intro k hk
              rw [List.map_append, List.mem_append] at hk
              rcases hk with hk | hk
              · exact ⟨(hD0k k hk).1, fun hkv => (hD0k k hk).2 (List.mem_cons_of_mem _ hkv)⟩
              · simp at hk
                subst hk
                exact ⟨hml, hnv⟩
            · refine goodM_append_entry hgood (levEq_deps_intro hfr hde' ?_ ?_)
              · intro d hd
                exact mlookup_isSome_append _ (hdsome d hd)
              · rw [depsMax_append_stable _ hdsome, hdmax]
            · rw [mlookup_append_none _ hlook_rid, mlookup_single_self]
      · rw [calculate_level_memoized resources fuel' hnv hml]
        exact ⟨⟨⟨[], by simp, by simp⟩, hm⟩, hml⟩
    refine ⟨hP, ?_⟩
    intro ds visited
    induction ds with
    | nil =>
      intro memo hvis hds hfuel hm
      have h0 : calc_level_deps resources (fuel' + 1) [] visited memo = (0, memo) := rfl
      rw [h0]
      exact ⟨⟨⟨[], by simp, by simp⟩, hm⟩, fun d hd => absurd hd (by simp), rfl⟩
    | cons d ds' ihds =>
      intro memo hvis hds hfuel hm
      have hPd := hP d visited memo hvis
        (fun hdids => hds d (List.mem_cons_self d ds') hdids) hfuel hm
      obtain ⟨⟨⟨D1, hD1eq, hD1k⟩, hgood1⟩, hlook1⟩ := hPd
      have hQ' := ihds (calculate_level resources (fuel' + 1) d visited memo).2 hvis
        (fun d' hd' => hds d' (List.mem_cons_of_mem _ hd')) hfuel hgood1
      obtain ⟨⟨⟨D2, hD2eq, hD2k⟩, hgood2⟩, hsome2, hmax2⟩ := hQ'
      have hunf : calc_level_deps resources (fuel' + 1) (d :: ds') visited memo =
          (max (calculate_level resources (fuel' + 1) d visited memo).1
            (calc_level_deps resources (fuel' + 1) ds' visited
              (calculate_level resources (fuel' + 1) d visited memo).2).1,
           (calc_level_deps resources (fuel' + 1) ds' visited
              (calculate_level resources (fuel' + 1) d visited memo).2).2) := rfl
      rw [hunf]
      have hlq : mlookup (calc_level_deps resources (fuel' + 1) ds' visited
          (calculate_level resources (fuel' + 1) d visited memo).2).2 d =
          some (calculate_level resources (fuel' + 1) d visited memo).1 := by
        rw [hD2eq]
        exact mlookup_append_some D2 hlook1
      refine ⟨⟨⟨D1 ++ D2, ?_, ?_⟩, hgood2⟩, ?_, ?_⟩
      · rw [hD2eq, hD1eq, List.append_assoc]
      · intro k hk
        rw [List.map_append, List.mem_append] at hk
        rcases hk with hk | hk
        · exact hD1k k hk
        · have h2 := hD2k k hk
          refine ⟨?_, h2.2⟩
          rcases hmk : mlookup memo k with _ | v
          · rfl
          · have hv : mlookup (calculate_level resources (fuel' + 1) d visited memo).2 k =
                some v := by
              rw [hD1eq]
              exact mlookup_append_some D1 hmk
            exact absurd h2.1 (by rw [hv]; simp)
      · intro d'' hd''
        rcases List.mem_cons.1 hd'' with rfl | hd'
        · rw [hlq]
          rfl
        · exact hsome2 d'' hd'
      · rw [depsMax_cons, hlq]
        simp only [Option.getD_some]
        rw [hmax2]

theorem levelsAdd_mem_inv {P : Nat → String → Prop}
    {levels : List (Nat × List String)} {l : Nat} {x : String}
    (hold : ∀ pl ∈ levels, ∀ y ∈ pl.2, P pl.1 y) (hx : P l x) :
    ∀ pl ∈ levelsAdd levels l x, ∀ y ∈ pl.2, P pl.1 y := by
  intro pl hpl y hy
  unfold levelsAdd at hpl
  by_cases hany : levels.any (fun p => p.1 == l) = true
  · rw [if_pos hany] at hpl
    rcases List.mem_map.1 hpl with ⟨q, hq, hqe⟩
    by_cases hql : (q.1 == l) = true
    · rw [if_pos hql] at hqe
      subst hqe
      rcases List.mem_append.1 hy with hy' | hy'
      · exact hold q hq y hy'
      · simp at hy'
        subst hy'
        have hq1 : q.1 = l := by simpa using hql
        show P (q.1, q.2 ++ [y]).1 y
        rw [hq1]  -- is this usable? goal P q.1 y
        exact hx
    · rw [if_neg hql] at hqe
      subst hqe
      exact hold q hq y hy
  · rw [if_neg hany] at hpl
    rcases List.mem_append.1 hpl with hpl' | hpl'
    · exact hold pl hpl' y hy
    · simp at hpl'
      subst hpl'
      simp at hy
      subst hy
      exact hx

theorem levelsAdd_mem_self (levels : List (Nat × List String)) (l : Nat) (x : String) :
    ∃ pl ∈ levelsAdd levels l x, x ∈ pl.2 := by
  unfold levelsAdd
  by_cases hany : levels.any (fun p => p.1 == l) = true
  · rw [if_pos hany]
    rcases List.any_eq_true.1 hany with ⟨q, hq, hql⟩
    refine ⟨(q.1, q.2 ++ [x]), List.mem_map.2 ⟨q, hq, ?_⟩, by simp⟩
    rw [if_pos hql]
  · rw [if_neg hany]
    exact ⟨(l, [x]), List.mem_append.2 (Or.inr (by simp)), by simp⟩

theorem levelsAdd_mono {levels : List (Nat × List String)} {l : Nat} {x : String} :
    ∀ pl ∈ levels, ∃ pl' ∈ levelsAdd levels l x, pl.1 = pl'.1 ∧ ∀ y ∈ pl.2, y ∈ pl'.2 := by
  intro pl hpl
  unfold levelsAdd
  by_cases hany : levels.any (fun p => p.1 == l) = true
  · rw [if_pos hany]
    by_cases hpll : (pl.1 == l) = true
    · refine ⟨(pl.1, pl.2 ++ [x]), List.mem_map.2 ⟨pl, hpl, by rw [if_pos hpll]⟩, rfl, ?_⟩
      intro y hy
      exact List.mem_append_left _ hy
    · exact ⟨pl, List.mem_map.2 ⟨pl, hpl, by rw [if_neg hpll]⟩, rfl, fun y hy => hy⟩
  · rw [if_neg hany]
    exact ⟨pl, List.mem_append_left _ hpl, rfl, fun y hy => hy⟩

/-! ### The grouping loop and the final level assignment -/

theorem groupRun_fold_inv (resources : List Resource) (hAcy : Acyclic resources) :
    ∀ (rs : List Resource) (acc : Memo × List (Nat × List String)),
      GoodM resources acc.1 →
      (∀ pl ∈ acc.2, ∀ y ∈ pl.2, mlookup acc.1 y = some pl.1) →
      (∃ D, (List.foldl (groupStep resources) acc rs).1 = acc.1 ++ D) ∧
      GoodM resources (List.foldl (groupStep resources) acc rs).1 ∧
      (∀ pl ∈ (List.foldl (groupStep resources) acc rs).2, ∀ y ∈ pl.2,
        mlookup (List.foldl (groupStep resources) acc rs).1 y = some pl.1) ∧
      (∀ r ∈ rs, ∃ pl ∈ (List.foldl (groupStep resources) acc rs).2, r.id ∈ pl.2) ∧
      (∀ pl ∈ acc.2, ∃ pl' ∈ (List.foldl (groupStep resources) acc rs).2,
        pl.1 = pl'.1 ∧ ∀ y ∈ pl.2, y ∈ pl'.2) := by
  intro rs
  induction rs with
  | nil =>
    intro acc hgood hlev
    exact ⟨⟨[], by simp⟩, hgood, hlev, fun r hr => absurd hr (by simp),
      fun pl hpl => ⟨pl, hpl, rfl, fun y hy => hy⟩⟩
  | cons r rs' ih =>
    intro acc hgood hlev
    have hstep := (levelCalls_ok resources hAcy (group_fuel resources)).1 r.id [] acc.1
      (by intro v hv; cases hv) (fun _ => List.Chain.nil)
      (by rw [freshCount_nil]; exact Nat.lt_succ_self _) hgood
    obtain ⟨⟨⟨D1, hD1eq, _⟩, hgood1⟩, hlook1⟩ := hstep
    have hfold : List.foldl (groupStep resources) acc (r :: rs') =
        List.foldl (groupStep resources) (groupStep resources acc r) rs' := rfl
    rw [hfold]
    have hlev1 : ∀ pl ∈ levelsAdd acc.2
        (calculate_level resources (group_fuel resources) r.id [] acc.1).1 r.id,
        ∀ y ∈ pl.2,
        mlookup (calculate_level resources (group_fuel resources) r.id [] acc.1).2 y
          = some pl.1 := by
      refine @levelsAdd_mem_inv
        (fun a y => mlookup
          (calculate_level resources (group_fuel resources) r.id [] acc.1).2 y = some a)
        acc.2 (calculate_level resources (group_fuel resources) r.id [] acc.1).1 r.id
        ?_ ?_
      · intro pl hpl y hy
        rw [hD1eq]
        exact mlookup_append_some D1 (hlev pl hpl y hy)
      · exact hlook1
    have hrest := ih (groupStep resources acc r) hgood1 hlev1
    obtain ⟨⟨D2, hD2eq⟩, hgood2, hlev2, hmem2, hmono2⟩ := hrest
    refine ⟨⟨D1 ++ D2, ?_⟩, hgood2, hlev2, ?_, ?_⟩
    · rw [hD2eq]
      show (groupStep resources acc r).1 ++ D2 = acc.1 ++ (D1 ++ D2)
      rw [show (groupStep resources acc r).1 = acc.1 ++ D1 from hD1eq, List.append_assoc]
    · intro r' hr'
      rcases List.mem_cons.1 hr' with rfl | hr''
      · obtain ⟨pl, hpl, hxin⟩ := levelsAdd_mem_self acc.2
          (calculate_level resources (group_fuel resources) r'.id [] acc.1).1 r'.id
        obtain ⟨pl', hpl', _, hsub⟩ := hmono2 pl hpl
        exact ⟨pl', hpl', hsub _ hxin⟩
      · exact hmem2 r' hr''
    · intro pl hpl
      obtain ⟨plm, hplm, heq1, hsub1⟩ := levelsAdd_mono pl hpl
      obtain ⟨pl', hpl', heq2, hsub2⟩ := hmono2 plm hplm
      exact ⟨pl', hpl', heq1.trans heq2, fun y hy => hsub2 y (hsub1 y hy)⟩

theorem group_levels_strict (resources : List Resource) (hN : (ids resources).Nodup)
    (hAcy : Acyclic resources) :
    (∀ r ∈ resources, ∀ d ∈ r.dependencies, d ∈ ids resources →
      levelOf resources d < levelOf resources r.id) ∧
    (∀ x, x ∉ ids resources → levelOf resources x = 0) ∧
    (∀ r ∈ resources, levelOf resources r.id =
      if r.dependencies.isEmpty then 0
      else depsMax (finalMemo resources) r.dependencies + 1) ∧
    (∀ r ∈ resources, ∃ pl ∈ group_by_dependency_level resources,
      pl.1 = levelOf resources r.id ∧ r.id ∈ pl.2) := by
  have hinv := groupRun_fold_inv resources hAcy resources ([], [])
    (goodM_nil resources) (by intro pl hpl; cases hpl)
  obtain ⟨_, hgood, hlev, hmem, _⟩ := hinv
  have hfm : finalMemo resources = (List.foldl (groupStep resources) ([], []) resources).1 := rfl
  have hgl : group_by_dependency_level resources =
      (List.foldl (groupStep resources) ([], []) resources).2 := rfl
  have hgoodF : GoodM resources (finalMemo resources) := by rw [hfm]; exact hgood
  have hlookup : ∀ r ∈ resources, ∃ l, mlookup (finalMemo resources) r.id = some l := by
    intro r hr
    obtain ⟨pl, hpl, hin⟩ := hmem r hr
    exact ⟨pl.1, by rw [hfm]; exact hlev pl hpl r.id hin⟩
  have hchar : ∀ r ∈ resources, levelOf resources r.id =
      if r.dependencies.isEmpty then 0
      else depsMax (finalMemo resources) r.dependencies + 1 := by
    intro r hr
    obtain ⟨l, hl⟩ := hlookup r hr
    have hEq := hgoodF r.id l hl
    have hfind : findResource resources r.id = some r := findResource_eq_some_of_nodup hN hr
    unfold levelOf
    rw [hl]
    by_cases hde : r.dependencies.isEmpty = true
    · rw [if_pos hde]
      simpa using levEq_empty_elim hEq hfind hde
    · have hde' : r.dependencies.isEmpty = false := by
        cases hb : r.dependencies.isEmpty with
        | false => rfl
        | true => exact absurd hb hde
      rw [if_neg hde]
      simpa using (levEq_deps_elim hEq hfind hde').2
  refine ⟨?_, ?_, hchar, ?_⟩
  · intro r hr d hd hdids
    obtain ⟨l, hl⟩ := hlookup r hr
    have hEq := hgoodF r.id l hl
    have hfind : findResource resources r.id = some r := findResource_eq_some_of_nodup hN hr
    have hde' : r.dependencies.isEmpty = false := by
      cases hb : r.dependencies.isEmpty with
      | false => rfl
      | true => exact absurd hd (by rw [List.isEmpty_iff.1 hb]; simp)
    obtain ⟨_, hlmax⟩ := levEq_deps_elim hEq hfind hde'
    have hge : levelOf resources d ≤ depsMax (finalMemo resources) r.dependencies :=
      depsMax_ge hd
    have hlev_r : levelOf resources r.id = l := by
      unfold levelOf
      rw [hl]
      rfl
    rw [hlev_r, hlmax]
    omega
  · intro x hx
    unfold levelOf
    rcases hl : mlookup (finalMemo resources) x with _ | l
    · rfl
    · have hEq := hgoodF x l hl
      have hfind : findResource resources x = none := by
        rcases hf : findResource resources x with _ | r
        · rfl
        · rcases findResource_mem hf with ⟨hrm, hrid⟩
          exact absurd (mem_ids_iff.2 ⟨r, hrm, hrid⟩) hx
      simpa using levEq_none_elim hEq hfind
  · intro r hr
    obtain ⟨pl, hpl, hin⟩ := hmem r hr
    refine ⟨pl, by rw [hgl]; exact hpl, ?_, hin⟩
    have := hlev pl hpl r.id hin
    unfold levelOf
    rw [hfm, this]
    rfl

end InfraOrch

/-! ### C3: the execution order is a topological order on acyclic inputs -/

/-- C3: for every resource list with pairwise-distinct ids whose dependency
graph restricted to listed ids is acyclic, `_calculate_execution_order`
returns a permutation of the resource ids in which every resource appears
after each of its listed dependencies (Kahn's algorithm on the in-degree
graph). -/
theorem calculate_execution_order_topological (resources : List InfraOrch.Resource)
    (hN : (InfraOrch.ids resources).Nodup) (hA : InfraOrch.Acyclic resources) :
    (InfraOrch.calculate_execution_order resources).Perm (InfraOrch.ids resources) ∧
    ∀ o₁ x o₂, InfraOrch.calculate_execution_order resources = o₁ ++ x :: o₂ →
      ∀ d ∈ InfraOrch.depsOf resources x, d ∈ InfraOrch.ids resources → d ∈ o₁ := by
  have hOK := InfraOrch.execution_order_OK resources hN
  have hcomp := InfraOrch.calculate_execution_order_mem_complete resources hN hA
  constructor
  · exact (List.perm_ext_iff_of_nodup hOK.nodup hN).2
      (fun a => ⟨fun h => hOK.subset a h, fun h => hcomp a h⟩)
  · intro o₁ x o₂ hsplit d hd hdL
    have hx : x ∈ InfraOrch.calculate_execution_order resources := by
      rw [hsplit]
      exact List.mem_append_right _ (List.mem_cons_self _ _)
    have hdmem := hOK.presentDeps x hx d hd hdL
    rw [hsplit] at hdmem
    rcases List.mem_append.1 hdmem with h | h
    · exact h
    · rcases List.mem_cons.1 h with hdx | h
      · rw [hdx] at hd hdL
        exact absurd ⟨hd, hdL⟩ (hOK.noSelf x hx)
      · have hp := hOK.pair
        rw [hsplit, List.pairwise_append] at hp
        have hxt := (List.pairwise_cons.1 hp.2.1).1 d h
        exact absurd ⟨hd, hdL⟩ hxt

/-- Witness for `calculate_execution_order_topological` at the concrete
acyclic example. -/
theorem calculate_execution_order_topological_witness :
    (InfraOrch.calculate_execution_order acyEx).Perm (InfraOrch.ids acyEx) :=
  (calculate_execution_order_topological acyEx (by decide)
    (InfraOrch.acyclic_of_index acyEx (by decide))).1

/-! ### C9: duplicates never appear; cycles silently drop out -/

/-- C9: for pairwise-distinct ids the execution order never contains
duplicates; and every resource lying on a dependency cycle, as well as every
resource transitively depending on one, is absent from the order and is
never attempted by sequential deployment. -/
theorem execution_order_nodup_and_cycles_unscheduled
    (resources : List InfraOrch.Resource) (hN : (InfraOrch.ids resources).Nodup) :
    (InfraOrch.calculate_execution_order resources).Nodup ∧
    ∀ x y : String,
      Relation.TransGen (InfraOrch.DepEdge resources) y y →
      (y = x ∨ Relation.TransGen (InfraOrch.DepEdge resources) y x) →
      x ∉ InfraOrch.calculate_execution_order resources ∧
      ∀ (hashFn : String → Int) (dc : String),
        x ∉ (InfraOrch.execute_deployment_plan hashFn dc false
              (InfraOrch.create_deployment_plan resources)).attempts := by
  have hOK := InfraOrch.execution_order_OK resources hN
  refine ⟨hOK.nodup, ?_⟩
  intro x y hcy hrel
  have hnot : x ∉ InfraOrch.calculate_execution_order resources := by
    rcases hrel with rfl | hrel
    · exact hOK.no_cycle_mem hcy
    · exact hOK.below_cycle_not_mem hcy hrel
  refine ⟨hnot, ?_⟩
  intro hashFn dc hmem
  rw [InfraOrch.exec_false_attempts] at hmem
  have hsub := InfraOrch.seq_attempts_subset hashFn dc
    (InfraOrch.create_deployment_plan resources).resources
    (InfraOrch.create_deployment_plan resources).execution_order
    InfraOrch.initState x hmem
  have hord : (InfraOrch.create_deployment_plan resources).execution_order =
      InfraOrch.calculate_execution_order resources := rfl
  rw [hord] at hsub
  simp only [InfraOrch.initState, List.nil_append] at hsub
  exact hnot hsub

/-- Witness for `execution_order_nodup_and_cycles_unscheduled`: in the
concrete cyclic example, `C` (which depends on the `A <-> B` cycle) is
missing from the execution order and from the sequential attempts. -/
theorem execution_order_cycles_unscheduled_witness :
    "C" ∉ InfraOrch.calculate_execution_order cycEx ∧
    "C" ∉ (InfraOrch.execute_deployment_plan hashZero "Datacenter1" false
      (InfraOrch.create_deployment_plan cycEx)).attempts := by
  have hBA : InfraOrch.DepEdge cycEx "B" "A" := by
    refine ⟨by decide, mkRes "A" ["B"], by decide, by decide⟩
  have hAB : InfraOrch.DepEdge cycEx "A" "B" := by
    refine ⟨by decide, mkRes "B" ["A"], by decide, by decide⟩
  have hAC : InfraOrch.DepEdge cycEx "A" "C" := by
    refine ⟨by decide, mkRes "C" ["A"], by decide, by decide⟩
  have hcy : Relation.TransGen (InfraOrch.DepEdge cycEx) "A" "A" :=
    Relation.TransGen.head hAB (Relation.TransGen.single hBA)
  have h := (execution_order_nodup_and_cycles_unscheduled cycEx (by decide)).2
    "C" "A" hcy (Or.inr (Relation.TransGen.single hAC))
  exact ⟨h.1, h.2 hashZero "Datacenter1"⟩

/-! ### C4: no retries; first failure aborts; clean runs complete -/

/-- C4: executing a plan built by `create_deployment_plan` (in either the
parallel or the sequential configuration) attempts each resource's
deployment at most once; if every resource has a supported provider the
result has status `completed` with an empty error list; and if an attempted
resource's provider is unsupported (the only failure mode of the embedded
`_deploy_resource`), the run aborts with status `failed` and a non-empty
error list. -/
theorem execute_deployment_plan_no_retries (resources : List InfraOrch.Resource)
    (hN : (InfraOrch.ids resources).Nodup) (hashFn : String → Int) (dc : String)
    (par : Bool) :
    (InfraOrch.execute_deployment_plan hashFn dc par
        (InfraOrch.create_deployment_plan resources)).attempts.Nodup ∧
    ((∀ r ∈ resources, r.provider ∈ InfraOrch.valid_providers) →
      (InfraOrch.execute_deployment_plan hashFn dc par
          (InfraOrch.create_deployment_plan resources)).status = "completed" ∧
      (InfraOrch.execute_deployment_plan hashFn dc par
          (InfraOrch.create_deployment_plan resources)).errors = []) ∧
    ((∃ r ∈ resources, r.id ∈ (InfraOrch.execute_deployment_plan hashFn dc par
          (InfraOrch.create_deployment_plan resources)).attempts ∧
        r.provider ∉ InfraOrch.valid_providers) →
      (InfraOrch.execute_deployment_plan hashFn dc par
          (InfraOrch.create_deployment_plan resources)).status = "failed" ∧
      (InfraOrch.execute_deployment_plan hashFn dc par
          (InfraOrch.create_deployment_plan resources)).errors ≠ []) := by
  have hOK := InfraOrch.execution_order_OK resources hN
  have hjoin := InfraOrch.group_levels_join_perm resources
  have hmemids : ∀ rid, rid ∈ InfraOrch.ids resources →
      ∃ r, InfraOrch.findResource resources rid = some r ∧ r ∈ resources := by
    intro rid hr
    obtain ⟨r, hfind, _⟩ := InfraOrch.findResource_isSome_of_mem_ids hr
    exact ⟨r, hfind, (InfraOrch.findResource_mem hfind).1⟩
  cases par with
  | false =>
    obtain ⟨t, hatt, hsub⟩ := InfraOrch.seq_attempts_decomp hashFn dc resources
      (InfraOrch.calculate_execution_order resources) InfraOrch.initState
    have hattempts : (InfraOrch.execute_deployment_plan hashFn dc false
        (InfraOrch.create_deployment_plan resources)).attempts =
        (InfraOrch.execute_sequential_deployment hashFn dc resources
          (InfraOrch.calculate_execution_order resources) InfraOrch.initState).attempts :=
      InfraOrch.exec_false_attempts hashFn dc _
    refine ⟨?_, ?_, ?_⟩
    · rw [hattempts, hatt]
      simp only [InfraOrch.initState, List.nil_append]
      exact hOK.nodup.sublist hsub
    · intro hval
      have hord : ∀ rid ∈ InfraOrch.calculate_execution_order resources,
          ∃ r, InfraOrch.findResource resources rid = some r ∧
            r.provider ∈ InfraOrch.valid_providers := by
        intro rid hr
        obtain ⟨r, hfind, hrmem⟩ := hmemids rid (hOK.subset rid hr)
        exact ⟨r, hfind, hval r hrmem⟩
      obtain ⟨h1, h2⟩ := InfraOrch.seq_clean hashFn dc resources
        (InfraOrch.calculate_execution_order resources) InfraOrch.initState hord rfl
      have hstat := @InfraOrch.exec_status_of_raised_none hashFn dc false
        (InfraOrch.create_deployment_plan resources) h1
      refine ⟨hstat.1, ?_⟩
      rw [hstat.2]
      exact h2
    · rintro ⟨r, hrmem, hratt, hrinv⟩
      rcases InfraOrch.seq_dichotomy hashFn dc resources
        (InfraOrch.calculate_execution_order resources) InfraOrch.initState rfl
        (by intro x hx; cases hx) with ⟨h1, h2⟩ | h
      · rw [hattempts] at hratt
        obtain ⟨r', hfind', hval'⟩ := h2 r.id hratt
        rw [InfraOrch.findResource_eq_some_of_nodup hN hrmem] at hfind'
        injection hfind' with he
        rw [← he] at hval'
        exact absurd hval' hrinv
      · obtain ⟨e, he⟩ := Option.isSome_iff_exists.1 h
        have hstat := @InfraOrch.exec_status_of_raised_some hashFn dc false
          (InfraOrch.create_deployment_plan resources) e he
        refine ⟨hstat.1, ?_⟩
        rw [hstat.2]
        simp
  | true =>
    obtain ⟨t, hatt, hsub⟩ := InfraOrch.runLevels_attempts_decomp hashFn dc resources
      (InfraOrch.group_by_dependency_level resources) InfraOrch.initState
    have hattempts : (InfraOrch.execute_deployment_plan hashFn dc true
        (InfraOrch.create_deployment_plan resources)).attempts =
        (InfraOrch.runLevels hashFn dc resources
          (InfraOrch.group_by_dependency_level resources) InfraOrch.initState).attempts :=
      InfraOrch.exec_true_attempts hashFn dc _
    refine ⟨?_, ?_, ?_⟩
    · rw [hattempts, hatt]
      simp only [InfraOrch.initState, List.nil_append]
      exact (hjoin.nodup_iff.2 hN).sublist hsub
    · intro hval
      have hord : ∀ rid ∈ (InfraOrch.group_by_dependency_level resources).flatMap
          (fun p => p.2), ∃ r, InfraOrch.findResource resources rid = some r ∧
            r.provider ∈ InfraOrch.valid_providers := by
        intro rid hr
        obtain ⟨r, hfind, hrmem⟩ := hmemids rid (hjoin.mem_iff.1 hr)
        exact ⟨r, hfind, hval r hrmem⟩
      obtain ⟨h1, h2⟩ := InfraOrch.runLevels_clean hashFn dc resources
        (InfraOrch.group_by_dependency_level resources) InfraOrch.initState hord rfl
      have hstat := @InfraOrch.exec_status_of_raised_none hashFn dc true
        (InfraOrch.create_deployment_plan resources) h1
      refine ⟨hstat.1, ?_⟩
      rw [hstat.2]
      exact h2
    · rintro ⟨r, hrmem, hratt, hrinv⟩
      rcases InfraOrch.runLevels_dichotomy hashFn dc resources
        (InfraOrch.group_by_dependency_level resources) InfraOrch.initState rfl
        (by intro x hx; cases hx) with ⟨h1, h2⟩ | h
      · rw [hattempts] at hratt
        obtain ⟨r', hfind', hval'⟩ := h2 r.id hratt
        rw [InfraOrch.findResource_eq_some_of_nodup hN hrmem] at hfind'
        injection hfind' with he
        rw [← he] at hval'
        exact absurd hval' hrinv
      · obtain ⟨e, he⟩ := Option.isSome_iff_exists.1 h
        have hstat := @InfraOrch.exec_status_of_raised_some hashFn dc true
          (InfraOrch.create_deployment_plan resources) e he
        refine ⟨hstat.1, ?_⟩
        rw [hstat.2]
        simp

/-- Witness for `execute_deployment_plan_no_retries`: a clean run over the
acyclic all-AWS example completes with no errors, and a run over a list
with an unsupported provider fails with a non-empty error list. -/
theorem execute_deployment_plan_no_retries_witness :
    ((InfraOrch.execute_deployment_plan hashZero "Datacenter1" true
        (InfraOrch.create_deployment_plan acyEx)).status = "completed" ∧
      (InfraOrch.execute_deployment_plan hashZero "Datacenter1" true
        (InfraOrch.create_deployment_plan acyEx)).errors = []) ∧
    ((InfraOrch.execute_deployment_plan hashZero "Datacenter1" false
        (InfraOrch.create_deployment_plan badEx)).status = "failed" ∧
      (InfraOrch.execute_deployment_plan hashZero "Datacenter1" false
        (InfraOrch.create_deployment_plan badEx)).errors ≠ []) := by
  constructor
  · exact (execute_deployment_plan_no_retries acyEx (by decide) hashZero "Datacenter1"
      true).2.1 (by decide)
  · have hx : ∃ r ∈ badEx, r.id ∈ (InfraOrch.execute_deployment_plan hashZero
        "Datacenter1" false (InfraOrch.create_deployment_plan badEx)).attempts ∧
        r.provider ∉ InfraOrch.valid_providers := by decide
    exact (execute_deployment_plan_no_retries badEx (by decide) hashZero "Datacenter1"
      false).2.2 hx

/-! ### C1: levels strictly dominate listed dependencies on acyclic inputs -/

/-- C1: for every resource list with pairwise-distinct ids whose listed
dependency graph is acyclic, `_group_by_dependency_level` assigns each
resource a level strictly greater than the level of every one of its
dependencies that occurs in the list, so listed dependencies lie in
strictly earlier batches.  Ids absent from the list are assigned level `0`;
a resource's level is `0` when it has no dependencies and one more than the
maximum over its dependencies' assigned levels otherwise, so dependencies
absent from the list contribute `0`; and every resource id occurs in the
bucket of the levels dict keyed by its level. -/
theorem group_by_dependency_level_strict (resources : List InfraOrch.Resource)
    (hN : (InfraOrch.ids resources).Nodup) (hAcy : InfraOrch.Acyclic resources) :
    (∀ r ∈ resources, ∀ d ∈ r.dependencies, d ∈ InfraOrch.ids resources →
      InfraOrch.levelOf resources d < InfraOrch.levelOf resources r.id) ∧
    (∀ x, x ∉ InfraOrch.ids resources → InfraOrch.levelOf resources x = 0) ∧
    (∀ r ∈ resources, InfraOrch.levelOf resources r.id =
      if r.dependencies.isEmpty then 0
      else InfraOrch.depsMax (InfraOrch.finalMemo resources) r.dependencies + 1) ∧
    (∀ r ∈ resources, ∃ pl ∈ InfraOrch.group_by_dependency_level resources,
      pl.1 = InfraOrch.levelOf resources r.id ∧ r.id ∈ pl.2) :=
  InfraOrch.group_levels_strict resources hN hAcy

/-- Witness for `group_by_dependency_level_strict` on the acyclic example:
the dependency `A` of `C` gets a strictly smaller level, and an unlisted id
gets level `0`. -/
theorem group_by_dependency_level_strict_witness :
    InfraOrch.levelOf acyEx "A" < InfraOrch.levelOf acyEx (mkRes "C" ["B", "A"]).id ∧
    InfraOrch.levelOf acyEx "X" = 0 := by
  have h := group_by_dependency_level_strict acyEx (by decide)
    (InfraOrch.acyclic_of_index acyEx (by decide))
  exact ⟨h.1 (mkRes "C" ["B", "A"]) (by decide) "A" (by decide) (by decide),
    h.2.1 "X" (by decide)⟩

/-! ### C2: cycle members need not get level 0 -/

/-- C2 counterexample: in `cycEx` the ids `A` and `B` lie on a dependency
cycle (each is a listed dependency of the other), yet the grouping assigns
level `2` to `A` and level `1` to `B`, not `0`. -/
theorem group_cycle_nonzero_level_counterexample :
    Relation.TransGen (InfraOrch.DepEdge cycEx) "A" "A" ∧
    InfraOrch.levelOf cycEx "A" = 2 ∧ InfraOrch.levelOf cycEx "B" = 1 := by
  refine ⟨?_, by decide, by decide⟩
  have hAB : InfraOrch.DepEdge cycEx "A" "B" :=
    ⟨by decide, mkRes "B" ["A"], by decide, by decide⟩
  have hBA : InfraOrch.DepEdge cycEx "B" "A" :=
    ⟨by decide, mkRes "A" ["B"], by decide, by decide⟩
  exact Relation.TransGen.head hAB (Relation.TransGen.single hBA)

/-- C2 amended: the `0` that `calculate_level` produces for circular
dependencies is the cut-off at re-entry: a call whose id is already on the
current visit path returns level `0` and leaves the memo untouched.  The
memoized levels of cycle members themselves then grow by one per unwound
cycle edge, as in the counterexample. -/
theorem calculate_level_cycle_cutoff (resources : List InfraOrch.Resource)
    (fuel : Nat) (rid : String) (visited : List String) (memo : InfraOrch.Memo)
    (h : rid ∈ visited) :
    InfraOrch.calculate_level resources fuel rid visited memo = (0, memo) :=
  InfraOrch.calculate_level_cutoff resources fuel rid visited memo h

/-- Witness for `calculate_level_cycle_cutoff`: re-entering `A` on the
two-cycle of `cycEx` returns `0` without touching the memo. -/
theorem calculate_level_cycle_cutoff_witness :
    InfraOrch.calculate_level cycEx 5 "A" ["B", "A"] [] = (0, []) :=
  calculate_level_cycle_cutoff cycEx 5 "A" ["B", "A"] [] (by decide)

/-! ### C8: rollback plan is the reversed execution order -/

/-- C8: for every resource list, the deployment plan built by
`create_deployment_plan` has `rollback_plan = reverse(execution_order)`. -/
theorem rollback_plan_is_reversed_execution_order (resources : List InfraOrch.Resource) :
    (InfraOrch.create_deployment_plan resources).rollback_plan =
      ((InfraOrch.create_deployment_plan resources).execution_order).reverse := rfl

/-! ### C10: power_on_vm is total and decides inventory membership -/

/-- C10: `power_on_vm` never raises (it is a total boolean function) and
returns `true` exactly when the name is one of the five fixed inventory
names of `list_virtual_machines`. -/
theorem power_on_vm_true_iff_in_inventory (vm_name : String) :
    VSphere.power_on_vm vm_name = true ↔ vm_name ∈ VSphere.inventory_names := by
  have hsome : VSphere.power_on_vm vm_name = (VSphere.get_vm_details vm_name).isSome := by
    unfold VSphere.power_on_vm
    cases VSphere.get_vm_details vm_name with
    | none => rfl
    | some vm => by_cases h : vm.power_state == "poweredOn" <;> simp [h]
  rw [hsome, VSphere.get_vm_details]
  rw [List.find?_isSome]
  show (∃ x ∈ VSphere.list_virtual_machines none, x.name == vm_name) ↔ _
  simp only [VSphere.list_virtual_machines, VSphere.vm_templates, VSphere.inventory_names,
    List.enum, List.map, List.mem_cons, List.not_mem_nil, or_false, beq_iff_eq]
  constructor
  · rintro ⟨x, hx, hname⟩
    rcases hx with h | h | h | h | h <;> subst h <;> simp_all
  · intro h
    rcases h with h | h | h | h | h <;>
      [exact ⟨_, Or.inl rfl, h.symm⟩;
       exact ⟨_, Or.inr (Or.inl rfl), h.symm⟩;
       exact ⟨_, Or.inr (Or.inr (Or.inl rfl)), h.symm⟩;
       exact ⟨_, Or.inr (Or.inr (Or.inr (Or.inl rfl))), h.symm⟩;
       exact ⟨_, Or.inr (Or.inr (Or.inr (Or.inr rfl))), h.symm⟩]

/-! ### C7: the fixed VM inventory and the datacenter argument -/

/-- C7 counterexample: calling `list_virtual_machines` with the given (but
empty) datacenter string does not put that argument in the records'
datacenter field — Python's `datacenter or "Datacenter1"` treats `""` as
falsy, so the field is `"Datacenter1"` instead of the given `""`. -/
theorem list_vms_given_datacenter_counterexample :
    (VSphere.list_virtual_machines (some "")).map (·.datacenter) ≠
      List.replicate 5 (some "") := by decide

/-- C7 amended: `list_virtual_machines` always returns exactly the five
fixed records, with names `web-server-01`, `db-server-01`, `app-server-01`,
`monitoring-01`, `backup-server` in that order; the argument never filters
the list and affects only the datacenter field, which is the argument when
that is given and non-empty, and `"Datacenter1"` when the argument is
omitted (`None`) or the empty string (Python truthiness of
`datacenter or "Datacenter1"`). -/
theorem list_vms_fixed_inventory (dc : Option String) :
    (VSphere.list_virtual_machines dc).map (·.name) = VSphere.inventory_names ∧
    (VSphere.list_virtual_machines dc).length = 5 ∧
    (VSphere.list_virtual_machines dc).map (·.datacenter) =
      List.replicate 5 (some (pyOrString dc "Datacenter1")) ∧
    ∀ dc₂, (VSphere.list_virtual_machines dc).map eraseDatacenter =
      (VSphere.list_virtual_machines dc₂).map eraseDatacenter :=
  ⟨rfl, rfl, rfl, fun _ => rfl⟩

/-! ### C5: what the deployment result dicts depend on -/

/-- C5 counterexample: for a VMware resource the result dict of
`_deploy_resource` is not a function of the resource and configuration
alone — it also reads Python's per-process salted string hash
(`hash(resource.id) % 254 + 1` in the `ip_address` field), so equal
resources under equal configuration but different process hash salts give
different result dicts. -/
theorem deploy_resource_not_pure_counterexample :
    InfraOrch.deploy_resource hashZero "Datacenter1" cexVm ≠
      InfraOrch.deploy_resource hashOne "Datacenter1" cexVm := by decide

/-- C5 amended: the result dict of `_deploy_resource` is a pure function of
the resource's fields, the configured datacenter, and the process's string
hash at the resource id; for the providers `aws`, `azure` and `gcp` it does
not depend on the hash at all, and for `vmware` every entry except
`ip_address` is hash-independent. -/
theorem deploy_resource_purity (h₁ h₂ : String → Int) (dc : String)
    (r : InfraOrch.Resource) :
    (h₁ r.id = h₂ r.id →
      InfraOrch.deploy_resource h₁ dc r = InfraOrch.deploy_resource h₂ dc r) ∧
    (r.provider ≠ "vmware" →
      InfraOrch.deploy_resource h₁ dc r = InfraOrch.deploy_resource h₂ dc r) ∧
    (r.provider = "vmware" →
      (InfraOrch.deploy_vmware_resource h₁ dc r).filter (fun p => p.1 != "ip_address") =
        (InfraOrch.deploy_vmware_resource h₂ dc r).filter (fun p => p.1 != "ip_address")) := by
  refine ⟨fun hid => ?_, fun hnv => ?_, fun _ => ?_⟩
  · unfold InfraOrch.deploy_resource
    split_ifs <;> simp [InfraOrch.deploy_vmware_resource, hid]
  · unfold InfraOrch.deploy_resource
    rcases eq_or_ne r.provider "aws" with h1 | h1
    · simp [h1]
    rcases eq_or_ne r.provider "azure" with h2 | h2
    · simp [h1, h2]
    rcases eq_or_ne r.provider "gcp" with h3 | h3
    · simp [h1, h2, h3]
    simp [h1, h2, h3, hnv]
  · rfl

/-- Witness for `deploy_resource_purity` at concrete inputs. -/
theorem deploy_resource_purity_witness :
    (InfraOrch.deploy_resource hashZero "DC" cexVm =
       InfraOrch.deploy_resource hashZero "DC" cexVm) ∧
    (InfraOrch.deploy_resource hashZero "DC" cexAws =
       InfraOrch.deploy_resource hashOne "DC" cexAws) ∧
    ((InfraOrch.deploy_vmware_resource hashZero "DC" cexVm).filter
        (fun p => p.1 != "ip_address") =
      (InfraOrch.deploy_vmware_resource hashOne "DC" cexVm).filter
        (fun p => p.1 != "ip_address")) :=
  ⟨(deploy_resource_purity hashZero hashZero "DC" cexVm).1 rfl,
   (deploy_resource_purity hashZero hashOne "DC" cexAws).2.1 (by decide),
   (deploy_resource_purity hashZero hashOne "DC" cexVm).2.2 rfl⟩

/-! ### C6: the scanner's fixed findings -/

/-- C6: `_scan_target` returns exactly three results, one per category
`network_security`, `application_security`, `compliance` with severities
`medium`, `high`, `low` in that order; apart from the fields interpolating
the target (`scan_id`, `description`, `affected_resources`) the content is
target-independent; and `scan_infrastructure` on `n` targets returns `3*n`
results. -/
theorem scan_target_three_fixed_results (n1 n2 n3 : Nat) (target : String) :
    (Scanner.scan_target n1 n2 n3 target).length = 3 ∧
    (Scanner.scan_target n1 n2 n3 target).map (·.category) =
      ["network_security", "application_security", "compliance"] ∧
    (Scanner.scan_target n1 n2 n3 target).map (·.severity) = ["medium", "high", "low"] ∧
    (∀ t₂, (Scanner.scan_target n1 n2 n3 target).map Scanner.coreContent =
      (Scanner.scan_target n1 n2 n3 t₂).map Scanner.coreContent) ∧
    (∀ clock targets, (Scanner.scan_infrastructure clock targets).length =
      3 * targets.length) := by
  refine ⟨rfl, rfl, rfl, fun _ => rfl, fun clock targets => ?_⟩
  unfold Scanner.scan_infrastructure
  rw [List.length_flatMap]
  have h : ∀ p : Nat × String,
      (Scanner.scan_target (clock p.1).1 (clock p.1).2.1 (clock p.1).2.2 p.2).length = 3 :=
    fun _ => rfl
  calc (List.map (fun p => (Scanner.scan_target (clock p.1).1 (clock p.1).2.1
          (clock p.1).2.2 p.2).length) targets.enum).sum
      = (List.map (fun _ => 3) targets.enum).sum := by
        induction targets.enum with
        | nil => rfl
        | cons a l ih => simp [List.map, h, ih]
    _ = 3 * targets.length := by
        simp [List.map_const, List.sum_replicate, List.enum_length, Nat.smul_one_eq_cast]
        ring

end DarkAutomation
